import Mathlib

/-!
Verification development for the drizzle-builder repository.

The JavaScript sources are shallowly embedded as Lean definitions:
* path/string utilities (`src/utils/shared.js` and the older utils module),
* the parser-dispatch and file-reading pipeline (`matchParser`, `readFiles`),
* the collection renderer (`renderCollections` / `walkCollections`),
* the pattern tree builder (modelled from the specification, since its
  implementation file `parse/patterns.js` is not among the provided sources).

JavaScript strings are Lean `String`s, JavaScript objects are association
lists (`List (String × ·)`) preserving insertion order, and fallible or
potentially non-terminating code is modelled with `Except` / `Option`
(with explicit fuel for the recursion of the renderer walk, whose source
has no structural termination argument).
-/

namespace Drizzle

/-! ## Path model (Node.js `path`, posix flavour)

Only the string-level behaviour used by the sources is modelled:
`basename`, `extname`, `dirname`, `relative`, `join`, `normalize`.
Paths are split into their non-empty `/`-separated segments.
-/

/-- Split a character list on a separator character; there is always at
least one (possibly empty) group, as with JavaScript `split`. -/
def splitChar (sep : Char) : List Char → List (List Char)
  | [] => [[]]
  | c :: cs =>
    match splitChar sep cs with
    | [] => [[c]]
    | g :: gs => if c = sep then [] :: g :: gs else (c :: g) :: gs

/-- Join character-list groups with a separator character. -/
def intercalateChar (sep : Char) : List (List Char) → List Char
  | [] => []
  | [g] => g
  | g :: gs => g ++ sep :: intercalateChar sep gs

/-- Non-empty `/`-separated segments of a path string. -/
def splitSegs (s : String) : List String :=
  ((splitChar '/' s.data).map String.mk).filter (fun seg => seg ≠ "")

/-- Does the path start with `/` (posix absolute)? -/
def isAbsPath (s : String) : Bool :=
  match s.data with
  | '/' :: _ => true
  | _ => false

/-- Segment normalization for an absolute path: `.` is dropped, `..` removes
the previous segment (or is dropped at the root). -/
def normSegsAbs (l : List String) : List String :=
  l.foldl (fun acc seg =>
    if seg = "." then acc
    else if seg = ".." then acc.dropLast
    else acc ++ [seg]) []

/-- Segment normalization for a relative path: `.` is dropped, `..` cancels a
previous real segment and otherwise accumulates at the front. -/
def normSegsRel (l : List String) : List String :=
  l.foldl (fun acc seg =>
    if seg = "." then acc
    else if seg = ".." then
      if acc ≠ [] ∧ acc.getLast? ≠ some ".." then acc.dropLast
      else acc ++ [".."]
    else acc ++ [seg]) []

/-- `path.resolve` of a single path against a current working directory,
returned as the segment list of the resulting absolute path. -/
def resolveSegs (cwd p : String) : List String :=
  if isAbsPath p then normSegsAbs (splitSegs p)
  else normSegsAbs (splitSegs cwd ++ splitSegs p)

/-- Length of the longest common segment run shared by two paths. -/
def commonLen : List String → List String → Nat
  | a :: as, b :: bs => if a = b then commonLen as bs + 1 else 0
  | _, _ => 0

/-- Core of `path.relative` on resolved segment lists: walk up (`..`) out of
the part of `f` beyond the common run, then down into `t`. -/
def relCore (f t : List String) : List String :=
  let c := commonLen f t
  List.replicate (f.length - c) ".." ++ t.drop c

/-- `path.relative(from, to)` relative to a current working directory `cwd`
(Node resolves non-absolute arguments against `process.cwd()`). -/
def relativeStr (cwd fromPath toPath : String) : String :=
  String.intercalate "/" (relCore (resolveSegs cwd fromPath) (resolveSegs cwd toPath))

/-- `path.dirname` (posix): everything before the final segment. -/
def dirnameStr (p : String) : String :=
  let segs := splitSegs p
  if segs.length ≤ 1 then (if isAbsPath p then "/" else ".")
  else (if isAbsPath p then "/" else "") ++ String.intercalate "/" segs.dropLast

/-- `path.basename` (posix, no suffix argument): the final segment. -/
def baseNameStr (p : String) : String :=
  (splitSegs p).getLast?.getD ""

/-- Index (in the basename) of the final `.`, ignored when it is the leading
character; `none` when the basename has no extension. Mirrors `path.extname`. -/
def extnameStr (p : String) : String :=
  let b := (baseNameStr p).data
  let idxs := (List.range b.length).filter (fun i => b.getD i ' ' = '.' ∧ 0 < i)
  match idxs.getLast? with
  | some i => String.mk (b.drop i)
  | none => ""

/-- `path.basename(filepath, path.extname(filepath))`: the final segment with
its extension removed — the `basename` helper of the utils module. -/
def baseNoExt (p : String) : String :=
  let b := (baseNameStr p).data
  String.mk (b.take (b.length - (extnameStr p).data.length))

/-- `path.normalize` on a path string. -/
def normalizeStr (s : String) : String :=
  if isAbsPath s then
    "/" ++ String.intercalate "/" (normSegsAbs (splitSegs s))
  else
    let segs := normSegsRel (splitSegs s)
    if segs = [] then "." else String.intercalate "/" segs

/-- `path.join(...)`: zero-length parts are ignored, the rest are joined with
`/` and normalized; an empty join yields `"."`. -/
def joinPath (parts : List String) : String :=
  let joined := String.intercalate "/" (parts.filter (fun x => x ≠ ""))
  if joined = "" then "." else normalizeStr joined

/-- Naive substring test, mirroring `String.prototype.indexOf(...) !== -1`. -/
def containsSub (s sub : String) : Bool :=
  (List.range (s.data.length + 1)).any (fun i => (s.data.drop i).take sub.data.length = sub.data)

/-! ## `src/utils/shared.js` of the older utils module (part_002):
`keyname` and friends. -/

/-- `removeLeadingNumbers` — the source regex is `/^[0-9|\.\-]+/`, whose
character class contains the literal `|` besides digits, `.` and `-`. -/
def removeLeadingNumbers (s : String) : String :=
  String.mk (s.data.dropWhile (fun c => c.isDigit ∨ c = '|' ∨ c = '.' ∨ c = '-'))

/-- The leading-run removal as the specification words it: only digits, `.`
and `-` are named (no `|`). Used to compare spec against source. -/
def specRemoveLeading (s : String) : String :=
  String.mk (s.data.dropWhile (fun c => c.isDigit ∨ c = '.' ∨ c = '-'))

/-- Replace every whitespace character by `-` (the `/\s/g` replacement). -/
def replaceWs (s : String) : String :=
  String.mk (s.data.map (fun c => if c.isWhitespace then '-' else c))

/-- Options bag of `keyname`. -/
structure KeyOpts where
  stripNumbers : Bool := true
deriving Repr, DecidableEq

/-- `keyname(str, {stripNumbers = true})` from the utils module in part_002:
basename without extension, whitespace to `-`, and (by default) the leading
`[0-9|.-]` run removed. -/
def keyname (str : String) (opts : KeyOpts := {}) : String :=
  let name := replaceWs (baseNoExt str)
  if opts.stripNumbers then removeLeadingNumbers name else name

/-- `keyname` as the specification describes it (leading run of digits, `.`,
`-` only). -/
def specKeyname (str : String) (opts : KeyOpts := {}) : String :=
  let name := replaceWs (baseNoExt str)
  if opts.stripNumbers then specRemoveLeading name else name

/-- `titleCase` from `src/utils/shared.js`: lower-case, `-`/`_` to spaces,
capitalize the first character of each word. -/
def titleCase (str : String) : String :=
  let spaced := str.data.map (fun c =>
    let c := c.toLower
    if c = '-' ∨ c = '_' then ' ' else c)
  String.mk (intercalateChar ' ' ((splitChar ' ' spaced).map (fun w =>
    match w with
    | [] => []
    | c :: cs => c.toUpper :: cs)))

/-! ## `src/src/utils/shared.js`: `relativePathArray`, `idKeys`,
`resourcePath`. -/

/-- `relativePathArray(filePath, fromPath)` from `src/src/utils/shared.js`.
The `cwd` argument supplies `process.cwd()`, which Node's `path.relative`
uses to resolve non-absolute arguments. -/
def relativePathArray (cwd filePath fromPath : String) : List String :=
  if containsSub filePath fromPath = false ∨ filePath = fromPath then []
  else
    let keys := relativeStr cwd fromPath (dirnameStr filePath)
    if keys ≠ "" then (splitChar '/' keys.data).map String.mk else []

/-- `idKeys`: split a dotted resource ID on `.`. -/
def idKeys (idString : String) : List String :=
  (splitChar '.' idString.data).map String.mk

/-- `resourcePath(resourceId, dest = '')` from `src/src/utils/shared.js`. -/
def resourcePath (resourceId : String) (dest : String := "") : String :=
  let subPath := idKeys resourceId
  let subPath := if subPath.length > 1 then subPath.drop 1 else subPath
  let filename := subPath.getLast?.getD "" ++ ".html"
  let dirs := subPath.dropLast
  joinPath [dest, String.intercalate "/" dirs, filename]

/-! ## JavaScript value model

`Val` models the JavaScript values flowing through the reader and renderer:
strings and plain objects. Objects are insertion-ordered association lists,
as JavaScript string-keyed objects are. -/

inductive Val where
  | str : String → Val
  | obj : List (String × Val) → Val

/-- Property assignment `o[k] = v`: overwrite in place when the key exists
(JavaScript keeps the original insertion position), else append. -/
def setField : List (String × Val) → String → Val → List (String × Val)
  | [], k, v => [(k, v)]
  | e :: rest, k, v => if e.1 = k then (k, v) :: rest else e :: setField rest k v

/-- Property read `o[k]`. -/
def getField : List (String × Val) → String → Option Val
  | [], _ => none
  | e :: rest, k => if e.1 = k then some e.2 else getField rest k

/-- Is the value an object? -/
def Val.isObj : Val → Bool
  | Val.obj _ => true
  | Val.str _ => false

/-- `deepObj(pathKeys, obj)` from the utils module (part_002): walk the
object along the path keys, with `prev[curr] = prev[curr] || {}` creating
an empty object wherever the property is missing or falsy — this mutates
the object being walked. The render module calls it with a third argument
`false`, which this two-parameter source ignores. Returns the updated
object together with the node reached; `none` models the strict-mode
`TypeError` raised by assigning a property on a primitive string. -/
def deepObj : List String → Val → Option (Val × Val)
  | [], v => some (v, v)
  | k :: ks, Val.obj fs =>
    let child := match getField fs k with
      | some (Val.obj cfs) => Val.obj cfs
      | some (Val.str s) => if s = "" then Val.obj [] else Val.str s
      | none => Val.obj []
    match deepObj ks child with
    | none => none
    | some (child2, node) => some (Val.obj (setField fs k child2), node)
  | _ :: _, Val.str _ => none

/-- Does the tree already contain an object chain along the given path?
When it does, `deepObj` creates nothing and the tree is unchanged. -/
def hasPath : List String → Val → Bool
  | [], _ => true
  | k :: ks, Val.obj fs =>
    (match getField fs k with
     | some (Val.obj cfs) => hasPath ks (Val.obj cfs)
     | _ => false)
  | _ :: _, Val.str _ => false

/-- `layoutObj.contents`: the `contents` property of the node `deepObj`
reached (`none` models JavaScript `undefined`, e.g. on a freshly created
empty object). -/
def layoutContents : Val → Option Val
  | Val.obj fs => getField fs "contents"
  | Val.str _ => none

/-! ## Parser dispatch and file reading (part_002: `matchParser`, `readFiles`)

A content parser takes `(rawText, filePath)` and returns a JavaScript value
(string or object). Regular-expression testing is abstracted as a boolean
function `regexTest pattern filepath`, since only `test` is used. -/

/-- A parse function `(rawText, filePath) -> object | string`. -/
abbrev ParseFn := String → String → Val

/-- One entry of the `parsers` option: an optional path pattern and the
parse function. -/
structure ParserRule where
  pattern : Option String := none
  parseFn : ParseFn

/-- The fallback parse function: wrap the raw text as `{contents: text}`. -/
def defaultParseFn : ParseFn := fun contents _ => Val.obj [("contents", Val.str contents)]

/-- Does this rule have a pattern that matches the filepath? Mirrors the body
of the `for..in` loop of `matchParser`. -/
def ruleHits (regexTest : String → String → Bool) (filepath : String)
    (e : String × ParserRule) : Bool :=
  match e.2.pattern with
  | some p => regexTest p filepath
  | none => false

/-- The loop of `matchParser`: return the first rule whose pattern tests true
against the filepath, in mapping (insertion) order. -/
def findMatching (regexTest : String → String → Bool) (filepath : String) :
    List (String × ParserRule) → Option ParserRule
  | [] => none
  | e :: rest =>
    if ruleHits regexTest filepath e then some e.2
    else findMatching regexTest filepath rest

/-- `matchParser(filepath, parsers)` from part_002: first matching rule's
`parseFn`; else the `default` rule's `parseFn` if present; else the
identity-wrapping default. -/
def matchParser (regexTest : String → String → Bool) (filepath : String)
    (parsers : List (String × ParserRule)) : ParseFn :=
  match findMatching regexTest filepath parsers with
  | some r => r.parseFn
  | none =>
    match parsers.find? (fun e => e.1 == "default") with
    | some e => e.2.parseFn
    | none => defaultParseFn

/-- The per-file body of `readFiles`: run the matched parser over the raw
text, wrap a string result as `{contents: string}`, then
`Object.assign(fileData, {path: filepath})`. -/
def processFile (regexTest : String → String → Bool)
    (parsers : List (String × ParserRule)) (filepath raw : String) : Val :=
  let fileData := matchParser regexTest filepath parsers raw filepath
  let fileData := match fileData with
    | Val.str s => Val.obj [("contents", Val.str s)]
    | d => d
  match fileData with
  | Val.obj fs => Val.obj (setField fs "path" (Val.str filepath))
  | d => d

/-- `readFiles`: map the per-file processing over the resolved files, each
given as `(path, raw contents)`. Concurrency of the reads does not affect the
per-file records, which this models positionally. -/
def readFiles (regexTest : String → String → Bool)
    (parsers : List (String × ParserRule)) (files : List (String × String)) : List Val :=
  files.map (fun f => processFile regexTest parsers f.1 f.2)

/-! ## Collection renderer (part_002: `renderCollection`, `walkCollections`,
`renderCollections`)

The walk mutates the pattern tree in place in JavaScript; here it is a
pure transformation. `renderCollection` also touches the **template
tree**: it resolves the collection layout with
`deepObj(layoutKey.split('.'), drizzleData.templates, false)`, and since
`deepObj` creates missing entries, that lookup mutates the template tree
whenever the layout path is absent. The embedding therefore threads the
template tree through the walk as explicit state: the walk takes the
template tree and returns the (possibly extended) template tree next to
the transformed pattern tree. The layout key is supplied already split on
`.`. Only the external template application and context building
(`applyTemplate`, `resourceContext`) are abstracted, as a pure function
`applyT (layoutBody?) (collectionNode) (currentKey) : String`.

The source recursion has no termination argument: `walkCollections`
recurses into **every** child at a key other than `"collection"`, and
JavaScript `for..in` over a primitive string enumerates its character
indices, each character being itself a one-character string. The embedding
therefore takes explicit fuel and returns `none` when the recursion does
not bottom out (or when the code would assign a property on a primitive, a
strict-mode `TypeError`). -/

/-- The `for..in`-visible children of a primitive string: its characters,
keyed by their decimal indices. -/
def strFields (s : String) : List (String × Val) :=
  s.data.enum.map (fun e => (toString e.1, Val.str (String.singleton e.2)))

/-- `walkCollections(patterns, drizzleData, currentKey)` with explicit
fuel, threading the template tree. For each own key: at key
`"collection"`, `renderCollection` resolves the layout node in the
template tree via `deepObj` (possibly creating it) and sets
`contents = applyTemplate(layoutObj.contents, ...)` on the collection
node; at any other key the walk recurses into the child value, object or
not, passing the child's key as the new naming context. -/
def walkCollections (applyT : Option Val → Val → String → String)
    (layoutKey : List String) :
    Nat → String → Val → Val → Option (Val × Val)
  | 0, _, _, _ => none
  | f + 1, key, tpl, v =>
    let fields := match v with
      | Val.obj fs => fs
      | Val.str s => strFields s
    let step := fun (st : Val × List (String × Val)) (e : String × Val) =>
      if e.1 == "collection" then
        match e.2 with
        | Val.obj cfs =>
          match deepObj layoutKey st.1 with
          | none => none
          | some (tpl2, layoutObj) =>
            some (tpl2, st.2 ++ [(e.1, Val.obj (setField cfs "contents"
              (Val.str (applyT (layoutContents layoutObj) (Val.obj cfs) key))))])
        | Val.str _ => none
      else
        match walkCollections applyT layoutKey f e.1 st.1 e.2 with
        | none => none
        | some (tpl2, v2) => some (tpl2, st.2 ++ [(e.1, v2)])
    match fields.foldlM step (tpl, []) with
    | none => none
    | some (tpl2, rs) =>
      match v with
      | Val.str s => some (tpl2, Val.str s)
      | Val.obj _ => some (tpl2, Val.obj rs)

/-- `renderCollections(drizzleData)`: run the walk from the root of the
`patterns` subtree with the default naming context `"patterns"`, over the
supplied template tree. -/
def renderCollections (applyT : Option Val → Val → String → String)
    (layoutKey : List String) (fuel : Nat) (templates patterns : Val) :
    Option (Val × Val) :=
  walkCollections applyT layoutKey fuel "patterns" templates patterns

mutual

/-- Shape of trees the Pattern Tree Builder hands to the renderer: every
node the walk visits is an object, and every value stored at a
`"collection"` key is an object. -/
def wfTree : Val → Bool
  | Val.str _ => false
  | Val.obj fs => wfFields fs

/-- Field-list part of `wfTree`. -/
def wfFields : List (String × Val) → Bool
  | [] => true
  | (k, v) :: rest =>
    (if k == "collection" then v.isObj else wfTree v) && wfFields rest

end

mutual

/-- Frame relation between a tree and the renderer's output: identical
everywhere, except that each object stored at a `"collection"` key has had
its `contents` property set to some string. -/
inductive FrameOk : Val → Val → Prop where
  | str (s : String) : FrameOk (Val.str s) (Val.str s)
  | obj (fs fs2 : List (String × Val)) :
      FrameFieldsOk fs fs2 → FrameOk (Val.obj fs) (Val.obj fs2)

/-- Field-list part of `FrameOk`. -/
inductive FrameFieldsOk : List (String × Val) → List (String × Val) → Prop where
  | nil : FrameFieldsOk [] []
  | consColl (cfs : List (String × Val)) (s : String)
      (rest rest2 : List (String × Val)) :
      FrameFieldsOk rest rest2 →
      FrameFieldsOk (("collection", Val.obj cfs) :: rest)
        (("collection", Val.obj (setField cfs "contents" (Val.str s))) :: rest2)
  | consOther (k : String) (v v2 : Val) (rest rest2 : List (String × Val)) :
      k ≠ "collection" → FrameOk v v2 → FrameFieldsOk rest rest2 →
      FrameFieldsOk ((k, v) :: rest) ((k, v2) :: rest2)

end

/-- Per-field frame relation used to assemble `FrameFieldsOk` along the
renderer's traversal of an object's fields. -/
def PairFrame (e e2 : String × Val) : Prop :=
  e2.1 = e.1 ∧
  ((e.1 = "collection" ∧ ∃ cfs s, e.2 = Val.obj cfs ∧
      e2.2 = Val.obj (setField cfs "contents" (Val.str s))) ∨
   (¬ e.1 = "collection" ∧ FrameOk e.2 e2.2))

/-! ## Natural / alphanumeric string order

The builder orders the unlisted collection keys in a "stable
natural/alphanumeric order" (the repository depends on `natsort`). A string
is tokenized into maximal digit runs (compared numerically) and single
characters; ties between distinct strings with the same token sequence are
broken by the string itself so that the order is linear. -/

/-- Tokenization worker: `acc` carries the numeric value of the digit run
currently being read. -/
def natChunksAux : Option Nat → List Char → List (Nat ⊕ Char)
  | acc, [] =>
    (match acc with | some n => [Sum.inl n] | none => [])
  | acc, c :: cs =>
    if c.isDigit then
      natChunksAux (some ((acc.getD 0) * 10 + (c.toNat - 48))) cs
    else
      (match acc with | some n => [Sum.inl n] | none => []) ++
        (Sum.inr c :: natChunksAux none cs)

/-- Tokenization for natural comparison: maximal digit runs become numbers,
other characters stand alone. -/
def natChunks (l : List Char) : List (Nat ⊕ Char) :=
  natChunksAux none l

/-- Strict comparison of two tokens: numbers sort before plain characters,
numbers compare numerically, characters by code point. -/
def chunkLt : Nat ⊕ Char → Nat ⊕ Char → Bool
  | Sum.inl n, Sum.inl m => decide (n < m)
  | Sum.inl _, Sum.inr _ => true
  | Sum.inr _, Sum.inl _ => false
  | Sum.inr c, Sum.inr d => decide (c.toNat < d.toNat)

/-- Strict lexicographic comparison of token sequences. -/
def chunksLt : List (Nat ⊕ Char) → List (Nat ⊕ Char) → Bool
  | [], [] => false
  | [], _ :: _ => true
  | _ :: _, [] => false
  | x :: xs, y :: ys => chunkLt x y || (decide (x = y) && chunksLt xs ys)

/-- Plain lexicographic comparison of character lists, used as tie-break. -/
def charsLe : List Char → List Char → Bool
  | [], _ => true
  | _ :: _, [] => false
  | c :: cs, d :: ds =>
    decide (c.toNat < d.toNat) || (decide (c = d) && charsLe cs ds)

/-- Boolean natural-order comparison on strings: token sequences
lexicographically, ties between equal token sequences broken by the plain
character order, so that the relation is a linear order. -/
def natLE (a b : String) : Bool :=
  chunksLt (natChunks a.data) (natChunks b.data) ||
    (decide (natChunks a.data = natChunks b.data) && charsLe a.data b.data)

/-- The natural order as a decidable relation. -/
def NatOrd (a b : String) : Prop := natLE a b = true

instance : DecidableRel NatOrd := fun a b => instDecidableEqBool (natLE a b) true

/-- Sort strings in natural/alphanumeric order (stable insertion sort). -/
def natSort (l : List String) : List String :=
  l.insertionSort NatOrd

/-! ## Pattern Tree Builder

Modelled from the spec: the implementation file `parse/patterns.js` (and its
helpers in `utils/object.js`) is not among the provided sources — only its
test file is. The definitions below follow §4.3 of the specification.

A file record carries its path, its directory-segment sequence relative to
the source root (via `relativePathArray`), its key (via `keyname`), the
property names its parsed front matter defines, its hidden flag, and its
body contents. Records whose data is destined to merge onto a Collection
node are marked `isCollectionMeta`. A collection's explicit ordering
declaration is supplied separately as `orderOf : List String → List String`
(directory segments to declared key order), since the claims quantify over
a fixed declaration.

Namespaces have no identity of their own beyond their key path (§3), so the
tree is represented as an insertion-ordered mapping from directory-segment
paths to Collections. -/

/-- A keyed file record entering the builder. -/
structure Record where
  path : String
  segments : List String
  key : String
  isCollectionMeta : Bool
  dataKeys : List String
  hidden : Bool
  contents : String
deriving Repr, DecidableEq

/-- A Pattern leaf (§3). -/
structure Pattern where
  id : String
  name : String
  contents : String
  path : String
  hidden : Bool
deriving Repr, DecidableEq

/-- A Collection node (§3): `items` maps pattern key to Pattern; `patterns`
is the ordered, hidden-filtered view computed after all records are placed. -/
structure Collection where
  id : String
  name : String
  items : List (String × Pattern)
  patterns : List Pattern
deriving Repr, DecidableEq

/-- The structured build error (`DrizzleError`). -/
structure DrizzleError where
  message : String
deriving Repr, DecidableEq

/-- The built tree: insertion-ordered mapping from directory-segment path to
Collection. -/
abbrev Tree := List (List String × Collection)

instance instDecEqExcept {ε α : Type} [DecidableEq ε] [DecidableEq α] :
    DecidableEq (Except ε α) := fun x y =>
  match x, y with
  | Except.ok a, Except.ok b =>
    if h : a = b then isTrue (by rw [h])
    else isFalse (by intro hc; cases hc; exact h rfl)
  | Except.error a, Except.error b =>
    if h : a = b then isTrue (by rw [h])
    else isFalse (by intro hc; cases hc; exact h rfl)
  | Except.ok _, Except.error _ => isFalse (by intro hc; cases hc)
  | Except.error _, Except.ok _ => isFalse (by intro hc; cases hc)

/-- Modelled from the spec: the reserved-property check (§4.3 step 5). A
pattern record must not define `id`; data destined to merge onto a
Collection must not define `items` or `patterns`. Returns the offending
property name. -/
def reservedCheck (r : Record) : Option String :=
  if r.isCollectionMeta then
    if r.dataKeys.contains "items" then some "items"
    else if r.dataKeys.contains "patterns" then some "patterns"
    else none
  else
    if r.dataKeys.contains "id" then some "id" else none

/-- Modelled from the spec: the structured error for a reserved-property
violation; the message names the property and the offending file. The
test suite checks that the message contains `Drizzle reserved property`
and the property name. -/
def reservedError (prop path : String) : DrizzleError :=
  ⟨"Drizzle reserved property: " ++ prop ++ " (" ++ path ++ ")"⟩

/-- Modelled from the spec: a Pattern's `id` is the dot-join of the root
key, the directory segments and the record's own key (§4.3 step 4). -/
def patternId (rootKey : String) (segments : List String) (key : String) : String :=
  String.intercalate "." (rootKey :: (segments ++ [key]))

/-- Modelled from the spec: a Collection's `id`, computed analogously. -/
def collectionId (rootKey : String) (segments : List String) : String :=
  String.intercalate "." (rootKey :: segments)

/-- Modelled from the spec: the Pattern built from a record (§3, §4.3
step 3-4); `name` defaults to the title-cased key. -/
def mkPattern (rootKey : String) (r : Record) : Pattern :=
  { id := patternId rootKey r.segments r.key
  , name := titleCase r.key
  , contents := r.contents
  , path := r.path
  , hidden := r.hidden }

/-- Modelled from the spec: the Collection stub created at a terminal
directory (§4.3 step 2), holding the record that caused its creation. -/
def newCollection (rootKey : String) (r : Record) : Collection :=
  { id := collectionId rootKey r.segments
  , name := titleCase (r.segments.getLastD rootKey)
  , items := [(r.key, mkPattern rootKey r)]
  , patterns := [] }

/-- JavaScript object assignment on the `items` mapping: overwrite in place
when the key exists, else append. -/
def insertItem : List (String × Pattern) → String → Pattern → List (String × Pattern)
  | [], k, p => [(k, p)]
  | e :: rest, k, p => if e.1 = k then (k, p) :: rest else e :: insertItem rest k p

/-- Add a record's Pattern under `collection.items[key]` (§4.3 step 3). -/
def addItem (rootKey : String) (c : Collection) (r : Record) : Collection :=
  { c with items := insertItem c.items r.key (mkPattern rootKey r) }

/-- Look up the Collection at a directory path. -/
def lookupColl : Tree → List String → Option Collection
  | [], _ => none
  | e :: rest, dir => if e.1 = dir then some e.2 else lookupColl rest dir

/-- Look up a Pattern in an `items` mapping. -/
def lookupItem : List (String × Pattern) → String → Option Pattern
  | [], _ => none
  | e :: rest, k => if e.1 = k then some e.2 else lookupItem rest k

/-- Replace the Collection stored at an existing directory path. -/
def updateColl : Tree → List String → Collection → Tree
  | [], _, _ => []
  | e :: rest, d, c => if e.1 = d then (d, c) :: rest else e :: updateColl rest d c

/-- Modelled from the spec: place one record into the tree (§4.3 steps 1-4):
create the Collection at the record's terminal directory if missing, then
add the record's Pattern to its `items`. Collection-meta records only merge
display data (name, ordering declaration), which the claims supply
externally, so they leave the tree unchanged. -/
def placeRecord (rootKey : String) (t : Tree) (r : Record) : Tree :=
  if r.isCollectionMeta then t
  else
    match lookupColl t r.segments with
    | some c => updateColl t r.segments (addItem rootKey c r)
    | none => t ++ [(r.segments, newCollection rootKey r)]

/-- Modelled from the spec: one step of the builder fold — the reserved
check runs first and aborts the whole build (§4.3 step 5). -/
def buildStep (rootKey : String) (t : Tree) (r : Record) : Except DrizzleError Tree :=
  match reservedCheck r with
  | some prop => Except.error (reservedError prop r.path)
  | none => Except.ok (placeRecord rootKey t r)

/-- Modelled from the spec: fold the records into a tree in record-sequence
order; the first reserved-property violation fails the entire build. -/
def buildTree (rootKey : String) (records : List Record) : Except DrizzleError Tree :=
  records.foldlM (buildStep rootKey) []

/-- Modelled from the spec: the ordered key sequence of a collection —
keys named in the declared order first, in that order, then the unlisted
keys in natural/alphanumeric order (§4.3, after all records are placed). -/
def orderedKeys (order : List String) (keys : List String) : List String :=
  order.filter (fun k => keys.contains k) ++
    natSort (keys.filter (fun k => ¬ order.contains k))

/-- Is the item at this key flagged hidden in its own data? -/
def hiddenOf (items : List (String × Pattern)) (k : String) : Bool :=
  match lookupItem items k with
  | some p => p.hidden
  | none => false

/-- Modelled from the spec: compute `patterns` from `items` — apply the
declared order, then exclude hidden items; `items` itself is never
filtered. -/
def collectionPatterns (order : List String) (items : List (String × Pattern)) :
    List Pattern :=
  ((orderedKeys order (items.map Prod.fst)).filter
      (fun k => ¬ hiddenOf items k)).filterMap (fun k => lookupItem items k)

/-- Fill in the `patterns` view of one Collection. -/
def finalizeCollection (orderOf : List String → List String) (dir : List String)
    (c : Collection) : Collection :=
  { c with patterns := collectionPatterns (orderOf dir) c.items }

/-- Modelled from the spec: the whole pattern-build operation — fold the
records, then compute every Collection's `patterns` view. -/
def buildPatterns (rootKey : String) (orderOf : List String → List String)
    (records : List Record) : Except DrizzleError Tree :=
  (buildTree rootKey records).map
    (fun t => t.map (fun e => (e.1, finalizeCollection orderOf e.1 e.2)))

/-- Pattern lookup through the whole tree: directory path then key. -/
def itemAt (t : Tree) (dir : List String) (k : String) : Option Pattern :=
  (lookupColl t dir).bind (fun c => lookupItem c.items k)

/-- Structural identity of Collections as the determinism claim compares
them: same `id`, same `name`, same `items` as a mapping, and the same
`patterns` sequence. -/
def collEquiv (c1 c2 : Collection) : Prop :=
  c1.id = c2.id ∧ c1.name = c2.name ∧
  (∀ k, lookupItem c1.items k = lookupItem c2.items k) ∧
  c1.patterns = c2.patterns

/-- Structural identity of trees: the same directory paths carry
Collections, and Collections at the same path are structurally identical. -/
def treeEquiv (t1 t2 : Tree) : Prop :=
  ∀ dir, (lookupColl t1 dir).isSome = (lookupColl t2 dir).isSome ∧
    ∀ c1 c2, lookupColl t1 dir = some c1 → lookupColl t2 dir = some c2 →
      collEquiv c1 c2

/-- Two records collide when both are pattern records for the same key of
the same directory (the documented overwrite hazard of `readFilesKeyed`). -/
def recordsCollide (a b : Record) : Prop :=
  a.isCollectionMeta = false ∧ b.isCollectionMeta = false ∧
  a.segments = b.segments ∧ a.key = b.key

instance : DecidablePred (fun p : Record × Record => recordsCollide p.1 p.2) :=
  fun _ => by unfold recordsCollide; infer_instance

/-- Is this record the pattern record for key `k` of directory `dir`? -/
def matchesRK (dir : List String) (k : String) (x : Record) : Bool :=
  !x.isCollectionMeta && x.segments == dir && x.key == k

/-- Is this record a pattern record of directory `dir`? -/
def matchesDir (dir : List String) (x : Record) : Bool :=
  !x.isCollectionMeta && x.segments == dir

instance : ∀ a b : Record, Decidable (recordsCollide a b) :=
  fun _ _ => by unfold recordsCollide; infer_instance

/-- The concrete four-pattern collection of §8 of the specification: keys
`a`, `b`, `c`, `d` in one directory, with `b` flagged hidden. -/
def exampleRecords : List Record :=
  [ { path := "p/a.html", segments := [], key := "a", isCollectionMeta := false
    , dataKeys := [], hidden := false, contents := "A" }
  , { path := "p/b.html", segments := [], key := "b", isCollectionMeta := false
    , dataKeys := [], hidden := true, contents := "B" }
  , { path := "p/c.html", segments := [], key := "c", isCollectionMeta := false
    , dataKeys := [], hidden := false, contents := "C" }
  , { path := "p/d.html", segments := [], key := "d", isCollectionMeta := false
    , dataKeys := [], hidden := false, contents := "D" } ]

/-! # Theorems -/

/-! ## Supporting lemmas for path utilities -/

/-- When one segment list extends another, the common run is the whole
shorter list. -/
theorem commonLen_self_append (f es : List String) :
    commonLen f (f ++ es) = f.length := by
  induction f with
  | nil => cases es <;> rfl
  | cons a as ih => simpa [commonLen] using ih

/-- Relative-path core from an ancestor: exactly the extra segments. -/
theorem relCore_self_append (f es : List String) :
    relCore f (f ++ es) = es := by
  unfold relCore
  rw [commonLen_self_append]
  simp

/-- Relative-path core between equal paths is empty. -/
theorem relCore_self (f : List String) : relCore f f = [] := by
  have := relCore_self_append f []
  simpa using this

/-! ## Claim C6: `keyname` -/

/-- Claim C6 counterexample: the source regex `/^[0-9|\.\-]+/` also strips a
leading `|`, which the claim's description ("digits/`.`/`-`") does not:
on `"|intro.html"` the code yields `"intro"`, the described behaviour
`"|intro"`. -/
theorem claimC6_keyname_cex :
    keyname "|intro.html" {} = "intro" ∧
    specKeyname "|intro.html" {} = "|intro" ∧
    keyname "|intro.html" {} ≠ specKeyname "|intro.html" {} := by
  refine ⟨by decide, by decide, by decide⟩

/-- Claim C6, amended: `keyname` with default options strips the directory
and extension, replaces whitespace characters with `-`, and removes a
leading run of digits, `.`, `-` **and `|`** (the source character class is
`[0-9|\.\-]`); with `stripNumbers := false` the leading run is kept. In
particular `keyname "01-intro.html" = "intro"` and
`keyname "01-intro.html" {stripNumbers := false} = "01-intro"`. -/
theorem claimC6_keyname :
    keyname "01-intro.html" {} = "intro" ∧
    keyname "01-intro.html" ⟨false⟩ = "01-intro" ∧
    (∀ s : String, keyname s ⟨false⟩ = replaceWs (baseNoExt s)) ∧
    (∀ s : String, keyname s {} = removeLeadingNumbers (keyname s ⟨false⟩)) := by
  exact ⟨by decide, by decide, fun s => rfl, fun s => rfl⟩

/-! ## Claim C7: `relativePathArray` -/

/-- Claim C7 counterexample: the code never includes the `fromPath` segment
itself — `relativePathArray("/a/b/baz/c/d/f.txt", "baz")` yields
`["c","d"]` (under the working directory `/a/b`, the most favourable one),
never the claimed `["baz","c","d"]`; and for a `fromPath` that is a
substring but not an ancestor (`"/a/b/f"` inside `"/a/b/f.txt"`) the code
returns `[".."]`, not the claimed `[]`. -/
theorem claimC7_relativePathArray_cex :
    relativePathArray "/a/b" "/a/b/baz/c/d/f.txt" "baz" = ["c", "d"] ∧
    (["c", "d"] : List String) ≠ ["baz", "c", "d"] ∧
    relativePathArray "/x" "/a/b/f.txt" "/a/b/f" = [".."] ∧
    ([".."] : List String) ≠ [] := by
  refine ⟨by decide, by decide, by decide, by decide⟩

/-- Claim C7, amended: `relativePathArray` returns the directory-name
segments strictly **below** the resolved `fromPath` down to the containing
directory of `filePath` (the `fromPath` segment itself is not included):
for an ancestor segment list `f` and extra segments `es` the relative-path
core yields exactly `es`. It returns `[]` when `fromPath` does not occur as
a substring of `filePath`, or when the two are equal (with equal resolved
paths the core is empty). A `fromPath` that occurs as a substring without
being an ancestor can produce `".."` segments instead. Concretely,
`relativePathArray("/a/b/baz/c/d/f.txt", "baz")` is `["c","d"]` under
working directory `/a/b`. -/
theorem claimC7_relativePathArray :
    relativePathArray "/a/b" "/a/b/baz/c/d/f.txt" "baz" = ["c", "d"] ∧
    (∀ cwd, relativePathArray cwd "/a/b/f.txt" "zzz" = []) ∧
    (∀ cwd fp, relativePathArray cwd fp fp = []) ∧
    (∀ f es, relCore f (f ++ es) = es) ∧
    (∀ f, relCore f f = []) := by
  refine ⟨by decide, ?_, ?_, relCore_self_append, relCore_self⟩
  · intro cwd
    unfold relativePathArray
    rw [if_pos (Or.inl (by decide))]
  · intro cwd fp
    unfold relativePathArray
    rw [if_pos (Or.inr rfl)]

/-! ## Claim C8: `resourcePath` -/

/-- Claim C8: `resourcePath` discards the first segment of a multi-segment
dotted ID, appends `.html` to the last segment, turns the middle segments
into directory components and joins them onto `dest`, normalized; a
single-segment ID is kept as the filename. -/
theorem claimC8_resourcePath :
    resourcePath "components.button.base" "" = "button/base.html" ∧
    resourcePath "pink" "" = "pink.html" ∧
    (∀ (resId dest first last : String) (mid : List String),
      idKeys resId = first :: (mid ++ [last]) →
      resourcePath resId dest =
        joinPath [dest, String.intercalate "/" mid, last ++ ".html"]) ∧
    (∀ (resId dest s : String), idKeys resId = [s] →
      resourcePath resId dest = joinPath [dest, s ++ ".html"]) := by
  refine ⟨by decide, by decide, ?_, ?_⟩
  · intro resId dest first last mid h
    simp only [resourcePath, h]
    rw [if_pos (by simp : (first :: (mid ++ [last])).length > 1)]
    simp [List.getLast?_concat, List.dropLast_concat]
  · intro resId dest s h
    simp only [resourcePath, h]
    rw [if_neg (by simp : ¬ ([s].length > 1))]
    have hie : "/".intercalate ([] : List String) = "" := rfl
    simp [joinPath, List.filter, hie]

/-- Claim C8 witness: the general clauses applied at concrete IDs. -/
theorem claimC8_resourcePath_witness :
    resourcePath "x.y.z" "dist" =
      joinPath ["dist", String.intercalate "/" ["y"], "z" ++ ".html"] ∧
    resourcePath "pink" "out" = joinPath ["out", "pink" ++ ".html"] :=
  ⟨claimC8_resourcePath.2.2.1 "x.y.z" "dist" "x" "z" ["y"] (by decide),
   claimC8_resourcePath.2.2.2 "pink" "out" "pink" (by decide)⟩

/-! ## Claims C9 and C10: parser dispatch and file records -/

/-- The loop returns `none` when no rule's pattern matches. -/
theorem findMatching_eq_none {regexTest : String → String → Bool} {fp : String}
    {l : List (String × ParserRule)}
    (h : ∀ e ∈ l, ruleHits regexTest fp e = false) :
    findMatching regexTest fp l = none := by
  induction l with
  | nil => rfl
  | cons e rest ih =>
    simp only [findMatching, h e (by simp), ih (fun x hx => h x (by simp [hx]))]
    simp

/-- The loop returns the first matching rule. -/
theorem findMatching_first {regexTest : String → String → Bool} {fp : String}
    {pre post : List (String × ParserRule)} {r : String × ParserRule}
    (hpre : ∀ e ∈ pre, ruleHits regexTest fp e = false)
    (hr : ruleHits regexTest fp r = true) :
    findMatching regexTest fp (pre ++ r :: post) = some r.2 := by
  induction pre with
  | nil => simp [findMatching, hr]
  | cons e rest ih =>
    simp only [List.cons_append, findMatching, hpre e (by simp)]
    simpa using ih (fun x hx => hpre x (by simp [hx]))

/-- Claim C9: `matchParser` evaluates the rules in mapping order, returns
the first matching rule's `parseFn`; with no match it falls back to the
`default` rule's `parseFn` when present, else to the function wrapping raw
text as `{contents: text}`. -/
theorem claimC9_matchParser :
    (∀ (regexTest : String → String → Bool) (fp : String)
        (pre post : List (String × ParserRule)) (r : String × ParserRule),
      (∀ e ∈ pre, ruleHits regexTest fp e = false) →
      ruleHits regexTest fp r = true →
      matchParser regexTest fp (pre ++ r :: post) = r.2.parseFn) ∧
    (∀ (regexTest : String → String → Bool) (fp : String)
        (parsers : List (String × ParserRule)) (d : String × ParserRule),
      (∀ e ∈ parsers, ruleHits regexTest fp e = false) →
      parsers.find? (fun e => e.1 == "default") = some d →
      matchParser regexTest fp parsers = d.2.parseFn) ∧
    (∀ (regexTest : String → String → Bool) (fp : String)
        (parsers : List (String × ParserRule)),
      (∀ e ∈ parsers, ruleHits regexTest fp e = false) →
      parsers.find? (fun e => e.1 == "default") = none →
      matchParser regexTest fp parsers = defaultParseFn) ∧
    (∀ text p, defaultParseFn text p = Val.obj [("contents", Val.str text)]) := by
  refine ⟨?_, ?_, ?_, fun text p => rfl⟩
  · intro regexTest fp pre post r hpre hr
    unfold matchParser
    rw [findMatching_first hpre hr]
  · intro regexTest fp parsers d hnone hd
    unfold matchParser
    rw [findMatching_eq_none hnone, hd]
  · intro regexTest fp parsers hnone hd
    unfold matchParser
    rw [findMatching_eq_none hnone, hd]

/-- Claim C9 witness: a concrete dispatch where the second rule is the
first match. -/
theorem claimC9_matchParser_witness :
    matchParser (fun pat s => pat == s) "x"
      ([("a", ⟨some "y", defaultParseFn⟩)] ++
        ("b", ⟨some "x", defaultParseFn⟩) :: []) =
      (("b", (⟨some "x", defaultParseFn⟩ : ParserRule))).2.parseFn :=
  claimC9_matchParser.1 (fun pat s => pat == s) "x"
    [("a", ⟨some "y", defaultParseFn⟩)] []
    ("b", ⟨some "x", defaultParseFn⟩) (by decide) (by decide)

/-- Overwriting or appending a property makes it readable at that key. -/
theorem getField_setField (fs : List (String × Val)) (k : String) (v : Val) :
    getField (setField fs k v) k = some v := by
  induction fs with
  | nil => simp [setField, getField]
  | cons e rest ih =>
    by_cases he : e.1 = k <;> simp [setField, getField, he, ih]

/-- Claim C10: every record produced by `readFiles` is the matched parser's
output merged with `{path: filepath}`: a string result `s` becomes
`{contents: s, path}`, an object result is used as-is with `path` set to
the source filepath — also when the parser's object already defines
`path`. -/
theorem claimC10_readFiles :
    (∀ (regexTest : String → String → Bool)
        (parsers : List (String × ParserRule)) (fp raw s : String),
      matchParser regexTest fp parsers raw fp = Val.str s →
      processFile regexTest parsers fp raw =
        Val.obj [("contents", Val.str s), ("path", Val.str fp)]) ∧
    (∀ (regexTest : String → String → Bool)
        (parsers : List (String × ParserRule)) (fp raw : String)
        (fs : List (String × Val)),
      matchParser regexTest fp parsers raw fp = Val.obj fs →
      processFile regexTest parsers fp raw =
        Val.obj (setField fs "path" (Val.str fp))) ∧
    (∀ (regexTest : String → String → Bool)
        (parsers : List (String × ParserRule)) (fp raw : String),
      ∃ fs, processFile regexTest parsers fp raw = Val.obj fs ∧
        getField fs "path" = some (Val.str fp)) ∧
    (∀ (regexTest : String → String → Bool)
        (parsers : List (String × ParserRule)) (files : List (String × String)),
      readFiles regexTest parsers files =
        files.map (fun f => processFile regexTest parsers f.1 f.2)) := by
  refine ⟨?_, ?_, ?_, fun _ _ _ => rfl⟩
  · intro regexTest parsers fp raw s h
    simp [processFile, h, setField, List.any_cons]
  · intro regexTest parsers fp raw fs h
    simp [processFile, h]
  · intro regexTest parsers fp raw
    unfold processFile
    cases h : matchParser regexTest fp parsers raw fp with
    | str s =>
      exact ⟨_, rfl, getField_setField _ _ _⟩
    | obj fs =>
      exact ⟨_, rfl, getField_setField _ _ _⟩

/-- Claim C10 witness: a parser object that itself defines `path` still ends
up with the source filepath. -/
theorem claimC10_readFiles_witness :
    processFile (fun _ _ => true)
      [("r", ⟨some "p", fun _ _ => Val.obj [("path", Val.str "fake")]⟩)]
      "real/file.html" "raw" =
      Val.obj (setField [("path", Val.str "fake")] "path" (Val.str "real/file.html")) :=
  claimC10_readFiles.2.1 (fun _ _ => true)
    [("r", ⟨some "p", fun _ _ => Val.obj [("path", Val.str "fake")]⟩)]
    "real/file.html" "raw" [("path", Val.str "fake")] rfl

/-! ## Supporting lemmas for the builder -/

/-- A run of clean records folds to `ok` of the pure placement fold. -/
theorem buildFold_ok (rootKey : String) :
    ∀ (l : List Record) (t : Tree),
      (∀ r ∈ l, reservedCheck r = none) →
      l.foldlM (buildStep rootKey) t =
        Except.ok (l.foldl (placeRecord rootKey) t) := by
  intro l
  induction l with
  | nil => intro t _; rfl
  | cons r rest ih =>
    intro t h
    have hr : reservedCheck r = none := h r (by simp)
    simp only [List.foldlM_cons, buildStep, hr, List.foldl_cons]
    exact ih (placeRecord rootKey t r) (fun x hx => h x (by simp [hx]))

/-- The fold aborts at the first reserved-property violation, whatever
follows it. -/
theorem buildFold_error (rootKey : String) {r : Record} {prop : String}
    (hr : reservedCheck r = some prop) :
    ∀ (pre : List Record) (post : List Record) (t : Tree),
      (∀ x ∈ pre, reservedCheck x = none) →
      (pre ++ r :: post).foldlM (buildStep rootKey) t =
        Except.error (reservedError prop r.path) := by
  intro pre
  induction pre with
  | nil =>
    intro post t _
    simp only [List.nil_append, List.foldlM_cons, buildStep, hr]
    rfl
  | cons x xs ih =>
    intro post t h
    have hx : reservedCheck x = none := h x (by simp)
    simp only [List.cons_append, List.foldlM_cons, buildStep, hx]
    exact ih post (placeRecord rootKey t x) (fun y hy => h y (by simp [hy]))

/-- A string occurs as a substring of any enclosing concatenation. -/
theorem containsSub_append (x sub y : String) :
    containsSub (x ++ sub ++ y) sub = true := by
  unfold containsSub
  rw [List.any_eq_true]
  refine ⟨x.data.length, ?_, ?_⟩
  · rw [List.mem_range]
    simp only [String.data_append, List.length_append]
    omega
  · simp only [String.data_append, decide_eq_true_eq, List.append_assoc]
    rw [List.drop_left, List.take_left]

/-- Unfolding of the boolean record/key match. -/
theorem matchesRK_iff {dir : List String} {k : String} {x : Record} :
    matchesRK dir k x = true ↔
      (x.isCollectionMeta = false ∧ x.segments = dir ∧ x.key = k) := by
  simp [matchesRK, Bool.and_assoc]

/-- Updating the collection stored at `d` changes only the lookup at `d`,
and only when an entry for `d` is present. -/
theorem lookupColl_update (t : Tree) (d : List String) (c2 : Collection) :
    ∀ dir, lookupColl (updateColl t d c2) dir =
      if dir = d then (lookupColl t d).map (fun _ => c2)
      else lookupColl t dir := by
  induction t with
  | nil =>
    intro dir
    by_cases h : dir = d <;> simp [lookupColl, updateColl, h]
  | cons e rest ih =>
    intro dir
    by_cases hed : e.1 = d
    · by_cases hdir : dir = d
      · subst hdir
        simp [lookupColl, updateColl, hed]
      · have hne : ¬ (d = dir) := fun hh => hdir hh.symm
        simp [lookupColl, updateColl, hed, hne, hdir]
    · by_cases hdir : dir = d
      · subst hdir
        simp [lookupColl, updateColl, hed, ih]
      · by_cases he : e.1 = dir
        · simp [lookupColl, updateColl, hed, he, hdir]
        · simp [lookupColl, updateColl, hed, he, ih, hdir]

/-- Appending a fresh entry affects only lookups at its own path, and only
when the path is not already present. -/
theorem lookupColl_append (t : Tree) (d : List String) (c : Collection) :
    ∀ dir, lookupColl (t ++ [(d, c)]) dir =
      (lookupColl t dir).or (if dir = d then some c else none) := by
  induction t with
  | nil =>
    intro dir
    by_cases h : dir = d
    · subst h; simp [lookupColl]
    · have : ¬ (d = dir) := fun hh => h hh.symm
      simp [lookupColl, this, h]
  | cons e rest ih =>
    intro dir
    by_cases he : e.1 = dir <;> simp [lookupColl, he, ih]

/-- Effect of placing one record on the collection lookup. -/
theorem lookupColl_placeRecord (rootKey : String) (t : Tree) (r : Record) :
    ∀ dir, lookupColl (placeRecord rootKey t r) dir =
      if r.isCollectionMeta = false ∧ r.segments = dir then
        some (match lookupColl t dir with
          | some c => addItem rootKey c r
          | none => newCollection rootKey r)
      else lookupColl t dir := by
  intro dir
  unfold placeRecord
  by_cases hm : r.isCollectionMeta
  · rw [if_pos hm, if_neg (by simp [hm])]
  · rw [if_neg hm]
    cases hc : lookupColl t r.segments with
    | some c =>
      rw [lookupColl_update]
      by_cases hdir : dir = r.segments
      · subst hdir
        rw [if_pos rfl, if_pos ⟨by simpa using hm, rfl⟩, hc]
        rfl
      · have hne : ¬ (r.segments = dir) := fun hh => hdir hh.symm
        rw [if_neg hdir, if_neg (fun hh => hne hh.2)]
    | none =>
      rw [lookupColl_append]
      by_cases hdir : dir = r.segments
      · subst hdir
        rw [if_pos rfl, if_pos ⟨by simpa using hm, rfl⟩, hc]
        rfl
      · have hne : ¬ (r.segments = dir) := fun hh => hdir hh.symm
        rw [if_neg hdir, if_neg (fun hh => hne hh.2)]
        simp

/-- Inserting an item overwrites exactly its own key. -/
theorem lookupItem_insertItem :
    ∀ (items : List (String × Pattern)) (k2 : String) (p : Pattern) (k : String),
      lookupItem (insertItem items k2 p) k =
        if k = k2 then some p else lookupItem items k := by
  intro items k2 p
  induction items with
  | nil =>
    intro k
    by_cases h : k = k2
    · subst h; simp [insertItem, lookupItem]
    · have : ¬ (k2 = k) := fun hh => h hh.symm
      simp [insertItem, lookupItem, h, this]
  | cons e rest ih =>
    intro k
    by_cases he2 : e.1 = k2
    · by_cases hk : k = k2
      · subst hk; simp [insertItem, lookupItem, he2]
      · have : ¬ (k2 = k) := fun hh => hk hh.symm
        simp [insertItem, lookupItem, he2, hk, this]
    · by_cases he : e.1 = k
      · have : ¬ (k = k2) := fun hh => he2 (he.trans hh)
        simp [insertItem, lookupItem, he2, he, this]
      · simp [insertItem, lookupItem, he2, he, ih]

/-- Effect of placing one record on a pattern lookup. -/
theorem itemAt_placeRecord (rootKey : String) (t : Tree) (r : Record)
    (dir : List String) (k : String) :
    itemAt (placeRecord rootKey t r) dir k =
      if r.isCollectionMeta = false ∧ r.segments = dir ∧ r.key = k then
        some (mkPattern rootKey r)
      else itemAt t dir k := by
  unfold itemAt
  rw [lookupColl_placeRecord]
  by_cases h1 : r.isCollectionMeta = false ∧ r.segments = dir
  · rw [if_pos h1]
    cases hc : lookupColl t dir with
    | some c =>
      simp only [Option.some_bind]
      show lookupItem (insertItem c.items r.key (mkPattern rootKey r)) k = _
      rw [lookupItem_insertItem]
      by_cases hk : k = r.key
      · rw [if_pos hk, if_pos ⟨h1.1, h1.2, hk.symm⟩]
      · rw [if_neg hk, if_neg (fun hh => hk hh.2.2.symm)]
    | none =>
      simp only [Option.some_bind]
      show lookupItem [(r.key, mkPattern rootKey r)] k = _
      by_cases hk : r.key = k
      · simp [lookupItem, hk, h1]
      · simp [lookupItem, hk, hc, fun hh : _ ∧ _ ∧ _ => hk hh.2.2]
  · rw [if_neg h1, if_neg (fun hh => h1 ⟨hh.1, hh.2.1⟩)]

/-- Characterization of pattern lookups after folding a collision-free run
of records: the first (hence only) matching record wins. -/
theorem itemAt_foldPlace (rootKey : String) :
    ∀ (l : List Record) (t : Tree) (dir : List String) (k : String),
      l.Pairwise (fun a b => ¬ recordsCollide a b) →
      itemAt (l.foldl (placeRecord rootKey) t) dir k =
        (match l.find? (matchesRK dir k) with
         | some x => some (mkPattern rootKey x)
         | none => itemAt t dir k) := by
  intro l
  induction l with
  | nil => intro t dir k _; rfl
  | cons r rest ih =>
    intro t dir k hp
    have hhead := (List.pairwise_cons.mp hp).1
    have hp2 := (List.pairwise_cons.mp hp).2
    simp only [List.foldl_cons]
    rw [ih _ dir k hp2]
    by_cases hr : matchesRK dir k r = true
    · rw [List.find?_cons_of_pos _ hr]
      obtain ⟨hm, hs, hk⟩ := matchesRK_iff.mp hr
      have hnone : rest.find? (matchesRK dir k) = none := by
        rw [List.find?_eq_none]
        intro x hx hpx
        obtain ⟨hm2, hs2, hk2⟩ := matchesRK_iff.mp hpx
        exact hhead x hx ⟨hm, hm2, hs.trans hs2.symm, hk.trans hk2.symm⟩
      rw [hnone, itemAt_placeRecord, if_pos ⟨hm, hs, hk⟩]
    · have hrf : matchesRK dir k r = false := Bool.eq_false_iff.mpr hr
      rw [List.find?_cons_of_neg _ (by simp [hrf])]
      have hcond : ¬ (r.isCollectionMeta = false ∧ r.segments = dir ∧ r.key = k) :=
        fun hh => hr (matchesRK_iff.mpr hh)
      cases hfind : rest.find? (matchesRK dir k) with
      | some x => rfl
      | none => rw [itemAt_placeRecord, if_neg hcond]

/-- In a collision-free record list, the matching record found is the
record itself. -/
theorem find?_matches_self {l : List Record} {r : Record}
    (hdist : l.Pairwise (fun a b => ¬ recordsCollide a b))
    (hmem : r ∈ l) (hmeta : r.isCollectionMeta = false) :
    l.find? (matchesRK r.segments r.key) = some r := by
  induction l with
  | nil => cases hmem
  | cons x rest ih =>
    have hhead := (List.pairwise_cons.mp hdist).1
    have hp2 := (List.pairwise_cons.mp hdist).2
    rcases List.mem_cons.mp hmem with hx | hx
    · subst hx
      exact List.find?_cons_of_pos _ (matchesRK_iff.mpr ⟨hmeta, rfl, rfl⟩)
    · have hxf : matchesRK r.segments r.key x = false := by
        rw [Bool.eq_false_iff]
        intro hhit
        obtain ⟨hm2, hs2, hk2⟩ := matchesRK_iff.mp hhit
        exact hhead r hx ⟨hm2, hmeta, hs2, hk2⟩
      rw [List.find?_cons_of_neg _ (by simp [hxf])]
      exact ih hp2 hx

/-- The finalize pass rewrites each Collection in place, keyed by its own
path. -/
theorem lookupColl_mapFinalize (orderOf : List String → List String) :
    ∀ (t : Tree) (dir : List String),
      lookupColl (t.map (fun e => (e.1, finalizeCollection orderOf e.1 e.2))) dir =
        (lookupColl t dir).map (finalizeCollection orderOf dir) := by
  intro t
  induction t with
  | nil => intro dir; rfl
  | cons e rest ih =>
    intro dir
    by_cases he : e.1 = dir
    · subst he; simp [lookupColl]
    · simp [lookupColl, he, ih]

/-- `finalizeCollection` does not change `items`. -/
theorem finalizeCollection_items (orderOf : List String → List String)
    (dir : List String) (c : Collection) :
    (finalizeCollection orderOf dir c).items = c.items := rfl

/-- Collection presence after the fold: a directory is present exactly when
it was present before or some placed pattern record lives there. -/
theorem lookupColl_foldPlace_isSome (rootKey : String) :
    ∀ (l : List Record) (t : Tree) (dir : List String),
      (lookupColl (l.foldl (placeRecord rootKey) t) dir).isSome =
        ((lookupColl t dir).isSome || l.any (matchesDir dir)) := by
  intro l
  induction l with
  | nil => intro t dir; simp
  | cons r rest ih =>
    intro t dir
    simp only [List.foldl_cons, List.any_cons]
    rw [ih]
    by_cases h1 : r.isCollectionMeta = false ∧ r.segments = dir
    · have hrd : matchesDir dir r = true := by
        simp [matchesDir, h1.1, h1.2]
      rw [lookupColl_placeRecord, if_pos h1, hrd]
      simp
    · have hrd : matchesDir dir r = false := by
        rw [Bool.eq_false_iff]
        intro hh
        apply h1
        unfold matchesDir at hh
        simp only [Bool.and_eq_true, Bool.not_eq_true', beq_iff_eq] at hh
        exact ⟨hh.1, hh.2⟩
      rw [lookupColl_placeRecord, if_neg h1, hrd]
      simp

/-- The finalize pass does not change pattern lookups. -/
theorem itemAt_mapFinalize (orderOf : List String → List String) (t : Tree)
    (dir : List String) (k : String) :
    itemAt (t.map (fun e => (e.1, finalizeCollection orderOf e.1 e.2))) dir k =
      itemAt t dir k := by
  unfold itemAt
  rw [lookupColl_mapFinalize]
  cases lookupColl t dir with
  | none => rfl
  | some c => simp [finalizeCollection]

/-! ## Claim C2: `items` completeness and the `patterns` view -/

/-- Claim C2: after the build completes, `items` holds every discovered
pattern — each collision-free pattern record appears under its directory
and key, with exactly its built Pattern (nothing is filtered from
`items`) — and every Collection's `patterns` equals the view computed from
its `items` by placing the declared keys first and the unlisted keys after
them in natural order, hidden items excluded. On the concrete §8 example
(keys `a,b,c,d`, order `[d,a]`, `b` hidden) `items` keeps all four keys and
`patterns` is `[d, a, c]`. -/
theorem claimC2_collectionViews (rootKey : String)
    (orderOf : List String → List String) (l : List Record)
    (hclean : ∀ r ∈ l, reservedCheck r = none)
    (hdist : l.Pairwise (fun a b => ¬ recordsCollide a b)) :
    (∃ t, buildPatterns rootKey orderOf l = Except.ok t ∧
      (∀ r ∈ l, r.isCollectionMeta = false →
        itemAt t r.segments r.key = some (mkPattern rootKey r)) ∧
      (∀ dir c, lookupColl t dir = some c →
        c.patterns = collectionPatterns (orderOf dir) c.items)) ∧
    (buildPatterns "patterns" (fun _ => ["d", "a"]) exampleRecords).map
        (fun t => t.map (fun e =>
          (e.1, e.2.items.map Prod.fst, e.2.patterns.map Pattern.id))) =
      Except.ok [([], ["a", "b", "c", "d"],
        ["patterns.d", "patterns.a", "patterns.c"])] := by
  refine ⟨?_, by decide⟩
  have hb : buildTree rootKey l =
      Except.ok (l.foldl (placeRecord rootKey) []) :=
    buildFold_ok rootKey l [] hclean
  refine ⟨(l.foldl (placeRecord rootKey) []).map
      (fun e => (e.1, finalizeCollection orderOf e.1 e.2)), ?_, ?_, ?_⟩
  · unfold buildPatterns
    rw [hb]
    rfl
  · intro r hr hm
    rw [itemAt_mapFinalize, itemAt_foldPlace rootKey l [] _ _ hdist,
      find?_matches_self hdist hr hm]
  · intro dir c h
    rw [lookupColl_mapFinalize] at h
    obtain ⟨c0, hc0, hcc⟩ := Option.map_eq_some'.mp h
    subst hcc
    rfl

/-- Claim C2 witness: the general statement applied to the concrete §8
records. -/
theorem claimC2_collectionViews_witness :
    (buildPatterns "patterns" (fun _ => ["d", "a"]) exampleRecords).map
        (fun t => t.map (fun e =>
          (e.1, e.2.items.map Prod.fst, e.2.patterns.map Pattern.id))) =
      Except.ok [([], ["a", "b", "c", "d"],
        ["patterns.d", "patterns.a", "patterns.c"])] :=
  (claimC2_collectionViews "patterns" (fun _ => ["d", "a"]) exampleRecords
    (by decide) (by decide)).2

/-! ## Claim C1: reserved properties abort the build -/

/-- Claim C1: if any record's parsed data defines a pattern-level `id`, or
collection-destined data defines `items`/`patterns`, the entire
pattern-build operation fails with a structured error whose message names
the offending property (and file); no tree is produced, and the records
after the first violation do not influence the outcome. -/
theorem claimC1_reservedProperty (rootKey : String)
    (orderOf : List String → List String)
    (pre post : List Record) (r : Record) (prop : String)
    (hpre : ∀ x ∈ pre, reservedCheck x = none)
    (hr : reservedCheck r = some prop) :
    buildPatterns rootKey orderOf (pre ++ r :: post) =
      Except.error (reservedError prop r.path) ∧
    (reservedError prop r.path).message =
      "Drizzle reserved property: " ++ prop ++ " (" ++ r.path ++ ")" ∧
    containsSub (reservedError prop r.path).message prop = true ∧
    (∀ post2, buildPatterns rootKey orderOf (pre ++ r :: post2) =
      buildPatterns rootKey orderOf (pre ++ r :: [])) := by
  have herr : ∀ post', buildTree rootKey (pre ++ r :: post') =
      Except.error (reservedError prop r.path) :=
    fun post' => buildFold_error rootKey hr pre post' [] hpre
  refine ⟨?_, rfl, ?_, ?_⟩
  · unfold buildPatterns
    rw [herr post]
    rfl
  · have hmsg : (reservedError prop r.path).message =
        ("Drizzle reserved property: " ++ prop) ++ (" (" ++ r.path ++ ")") := by
      simp [reservedError, String.append_assoc]
    rw [hmsg]
    have := containsSub_append "Drizzle reserved property: " prop (" (" ++ r.path ++ ")")
    simpa [String.append_assoc] using this
  · intro post2
    unfold buildPatterns
    rw [herr post2, herr []]

/-- Claim C1 witness: a pattern record defining `id` after one clean record
aborts the build with the expected error, independently of a trailing
record. -/
theorem claimC1_reservedProperty_witness :
    buildPatterns "patterns" (fun _ => [])
      ([{ path := "p/ok.html", segments := [], key := "ok",
          isCollectionMeta := false, dataKeys := ["notes"], hidden := false,
          contents := "fine" }] ++
        { path := "p/bad.html", segments := [], key := "bad",
          isCollectionMeta := false, dataKeys := ["id"], hidden := false,
          contents := "boom" } ::
        [{ path := "p/later.html", segments := [], key := "later",
           isCollectionMeta := false, dataKeys := [], hidden := false,
           contents := "skipped" }]) =
      Except.error (reservedError "id" "p/bad.html") :=
  (claimC1_reservedProperty "patterns" (fun _ => [])
    [{ path := "p/ok.html", segments := [], key := "ok",
       isCollectionMeta := false, dataKeys := ["notes"], hidden := false,
       contents := "fine" }]
    [{ path := "p/later.html", segments := [], key := "later",
       isCollectionMeta := false, dataKeys := [], hidden := false,
       contents := "skipped" }]
    { path := "p/bad.html", segments := [], key := "bad",
      isCollectionMeta := false, dataKeys := ["id"], hidden := false,
      contents := "boom" }
    "id" (by decide) (by decide)).1

/-! ## The natural order is a linear order -/

/-- Characters with equal code points are equal. -/
theorem charToNat_inj {c d : Char} (h : c.toNat = d.toNat) : c = d := by
  have hv : c.val.toNat = d.val.toNat := h
  have : c.val = d.val := by
    apply UInt32.eq_of_toBitVec_eq
    apply BitVec.eq_of_toNat_eq
    simpa [UInt32.toNat] using hv
  exact Char.eq_of_val_eq this

/-- Token comparison is irreflexive. -/
theorem chunkLt_irrefl (x : Nat ⊕ Char) : chunkLt x x = false := by
  cases x <;> simp [chunkLt]

/-- Token comparison is asymmetric. -/
theorem chunkLt_asymm {x y : Nat ⊕ Char} (h : chunkLt x y = true) :
    chunkLt y x = false := by
  cases x <;> cases y <;> simp_all [chunkLt] <;> omega

/-- Token comparison is transitive. -/
theorem chunkLt_trans {x y z : Nat ⊕ Char} (hxy : chunkLt x y = true)
    (hyz : chunkLt y z = true) : chunkLt x z = true := by
  cases x <;> cases y <;> cases z <;> simp_all [chunkLt] <;> omega

/-- Token comparison is connex: incomparable tokens are equal. -/
theorem chunkLt_connex {x y : Nat ⊕ Char} (h1 : chunkLt x y = false)
    (h2 : ¬ x = y) : chunkLt y x = true := by
  cases x with
  | inl n =>
    cases y with
    | inl m =>
      simp_all [chunkLt]
      omega
    | inr d => simp_all [chunkLt]
  | inr c =>
    cases y with
    | inl m => simp [chunkLt]
    | inr d =>
      simp_all [chunkLt]
      rcases Nat.lt_trichotomy c.toNat d.toNat with hlt | heq | hgt
      · omega
      · exact absurd (charToNat_inj heq) h2
      · exact hgt

/-- Token-sequence comparison is irreflexive. -/
theorem chunksLt_irrefl : ∀ l : List (Nat ⊕ Char), chunksLt l l = false := by
  intro l
  induction l with
  | nil => rfl
  | cons x xs ih => simp [chunksLt, chunkLt_irrefl, ih]

/-- Token-sequence comparison is asymmetric. -/
theorem chunksLt_asymm :
    ∀ {l1 l2 : List (Nat ⊕ Char)}, chunksLt l1 l2 = true →
      chunksLt l2 l1 = false := by
  intro l1
  induction l1 with
  | nil =>
    intro l2 h
    cases l2 with
    | nil => simp [chunksLt] at h
    | cons y ys => rfl
  | cons x xs ih =>
    intro l2 h
    cases l2 with
    | nil => simp [chunksLt] at h
    | cons y ys =>
      simp only [chunksLt, Bool.or_eq_true, Bool.and_eq_true,
        decide_eq_true_eq] at h
      rcases h with h | ⟨hxy, hrec⟩
      · have hne : ¬ (y = x) := by
          intro hh
          subst hh
          simp [chunkLt_irrefl] at h
        simp [chunksLt, chunkLt_asymm h, hne]
      · subst hxy
        simp [chunksLt, chunkLt_irrefl, ih hrec]

/-- Token-sequence comparison is transitive. -/
theorem chunksLt_trans :
    ∀ {l1 l2 l3 : List (Nat ⊕ Char)}, chunksLt l1 l2 = true →
      chunksLt l2 l3 = true → chunksLt l1 l3 = true := by
  intro l1
  induction l1 with
  | nil =>
    intro l2 l3 h12 h23
    cases l2 with
    | nil => simpa [chunksLt] using h23
    | cons y ys =>
      cases l3 with
      | nil => simp [chunksLt] at h23
      | cons z zs => simp [chunksLt]
  | cons x xs ih =>
    intro l2 l3 h12 h23
    cases l2 with
    | nil => simp [chunksLt] at h12
    | cons y ys =>
      cases l3 with
      | nil => simp [chunksLt] at h23
      | cons z zs =>
        simp only [chunksLt, Bool.or_eq_true, Bool.and_eq_true,
          decide_eq_true_eq] at h12 h23 ⊢
        rcases h12 with h12 | ⟨hxy, hrec12⟩
        · rcases h23 with h23 | ⟨hyz, hrec23⟩
          · exact Or.inl (chunkLt_trans h12 h23)
          · subst hyz
            exact Or.inl h12
        · subst hxy
          rcases h23 with h23 | ⟨hyz, hrec23⟩
          · exact Or.inl h23
          · subst hyz
            exact Or.inr ⟨rfl, ih hrec12 hrec23⟩

/-- Token-sequence comparison is connex. -/
theorem chunksLt_connex :
    ∀ {l1 l2 : List (Nat ⊕ Char)}, chunksLt l1 l2 = false → ¬ l1 = l2 →
      chunksLt l2 l1 = true := by
  intro l1
  induction l1 with
  | nil =>
    intro l2 h1 h2
    cases l2 with
    | nil => exact absurd rfl h2
    | cons y ys => simp [chunksLt] at h1
  | cons x xs ih =>
    intro l2 h1 h2
    cases l2 with
    | nil => simp [chunksLt]
    | cons y ys =>
      by_cases hxy : x = y
      · subst hxy
        have hrec : chunksLt xs ys = false := by
          simp only [chunksLt, Bool.or_eq_false_iff] at h1
          simpa using h1.2
        have hne : ¬ xs = ys := fun hh => h2 (by rw [hh])
        simp [chunksLt, chunkLt_irrefl, ih hrec hne]
      · have hlt : chunkLt x y = false := by
          simp only [chunksLt, Bool.or_eq_false_iff] at h1
          exact h1.1
        simp [chunksLt, chunkLt_connex hlt hxy]

/-- Character-sequence comparison is total. -/
theorem charsLe_total : ∀ l1 l2 : List Char,
    (charsLe l1 l2 || charsLe l2 l1) = true := by
  intro l1
  induction l1 with
  | nil => intro l2; simp [charsLe]
  | cons c cs ih =>
    intro l2
    cases l2 with
    | nil => simp [charsLe]
    | cons d ds =>
      simp only [charsLe, Bool.or_eq_true, Bool.and_eq_true,
        decide_eq_true_eq]
      rcases Nat.lt_trichotomy c.toNat d.toNat with hlt | heq | hgt
      · exact Or.inl (Or.inl hlt)
      · have hcd : c = d := charToNat_inj heq
        subst hcd
        rcases Bool.or_eq_true_iff.mp (ih ds) with h | h
        · exact Or.inl (Or.inr ⟨rfl, h⟩)
        · exact Or.inr (Or.inr ⟨rfl, h⟩)
      · exact Or.inr (Or.inl hgt)

/-- Character-sequence comparison is transitive. -/
theorem charsLe_trans : ∀ {l1 l2 l3 : List Char}, charsLe l1 l2 = true →
    charsLe l2 l3 = true → charsLe l1 l3 = true := by
  intro l1
  induction l1 with
  | nil => intro l2 l3 _ _; simp [charsLe]
  | cons c cs ih =>
    intro l2 l3 h12 h23
    cases l2 with
    | nil => simp [charsLe] at h12
    | cons d ds =>
      cases l3 with
      | nil => simp [charsLe] at h23
      | cons e es =>
        simp only [charsLe, Bool.or_eq_true, Bool.and_eq_true,
          decide_eq_true_eq] at h12 h23 ⊢
        rcases h12 with h12 | ⟨hde, hrec12⟩
        · rcases h23 with h23 | ⟨hde2, hrec23⟩
          · exact Or.inl (Nat.lt_trans h12 h23)
          · subst hde2
            exact Or.inl h12
        · subst hde
          rcases h23 with h23 | ⟨hde2, hrec23⟩
          · exact Or.inl h23
          · subst hde2
            exact Or.inr ⟨rfl, ih hrec12 hrec23⟩

/-- Character-sequence comparison is antisymmetric. -/
theorem charsLe_antisymm : ∀ {l1 l2 : List Char}, charsLe l1 l2 = true →
    charsLe l2 l1 = true → l1 = l2 := by
  intro l1
  induction l1 with
  | nil =>
    intro l2 h12 h21
    cases l2 with
    | nil => rfl
    | cons d ds => simp [charsLe] at h21
  | cons c cs ih =>
    intro l2 h12 h21
    cases l2 with
    | nil => simp [charsLe] at h12
    | cons d ds =>
      simp only [charsLe, Bool.or_eq_true, Bool.and_eq_true,
        decide_eq_true_eq] at h12 h21
      rcases h12 with h12 | ⟨hcd, hrec12⟩
      · rcases h21 with h21 | ⟨hdc, hrec21⟩
        · omega
        · subst hdc
          omega
      · subst hcd
        rcases h21 with h21 | ⟨_, hrec21⟩
        · omega
        · rw [ih hrec12 hrec21]

/-- Strings with equal character data are equal. -/
theorem stringDataExt {a b : String} (h : a.data = b.data) : a = b := by
  cases a
  cases b
  simp only at h
  rw [h]

/-- The natural order on strings is total. -/
theorem natLE_total (a b : String) : (natLE a b || natLE b a) = true := by
  by_cases hlt : chunksLt (natChunks a.data) (natChunks b.data) = true
  · simp [natLE, hlt]
  · have hltf : chunksLt (natChunks a.data) (natChunks b.data) = false :=
      Bool.eq_false_iff.mpr hlt
    by_cases heq : natChunks a.data = natChunks b.data
    · have := charsLe_total a.data b.data
      rcases Bool.or_eq_true_iff.mp this with h | h <;>
        simp [natLE, heq, h, chunksLt_irrefl]
    · simp [natLE, chunksLt_connex hltf heq]

/-- The natural order on strings is transitive. -/
theorem natLE_trans {a b c : String} (hab : natLE a b = true)
    (hbc : natLE b c = true) : natLE a c = true := by
  unfold natLE at hab hbc ⊢
  simp only [Bool.or_eq_true, Bool.and_eq_true, decide_eq_true_eq] at hab hbc ⊢
  rcases hab with hab | ⟨habe, habc⟩
  · rcases hbc with hbc | ⟨hbce, hbcc⟩
    · exact Or.inl (chunksLt_trans hab hbc)
    · rw [← hbce]
      exact Or.inl hab
  · rw [habe]
    rcases hbc with hbc | ⟨hbce, hbcc⟩
    · exact Or.inl hbc
    · exact Or.inr ⟨hbce, charsLe_trans habc hbcc⟩

/-- The natural order on strings is antisymmetric. -/
theorem natLE_antisymm {a b : String} (hab : natLE a b = true)
    (hba : natLE b a = true) : a = b := by
  unfold natLE at hab hba
  simp only [Bool.or_eq_true, Bool.and_eq_true, decide_eq_true_eq] at hab hba
  rcases hab with hab | ⟨habe, habc⟩
  · rcases hba with hba | ⟨hbae, hbac⟩
    · have := chunksLt_asymm hab
      rw [this] at hba
      cases hba
    · rw [hbae] at hab
      rw [chunksLt_irrefl] at hab
      cases hab
  · rcases hba with hba | ⟨hbae, hbac⟩
    · rw [habe] at hba
      rw [chunksLt_irrefl] at hba
      cases hba
    · exact stringDataExt (charsLe_antisymm habc hbac)

/-- Sorting in natural order is invariant under permutation of the input. -/
theorem natSort_eq_of_perm {l1 l2 : List String} (h : l1.Perm l2) :
    natSort l1 = natSort l2 := by
  haveI : IsTotal String NatOrd :=
    ⟨fun a b => by
      rcases Bool.or_eq_true_iff.mp (natLE_total a b) with hh | hh
      · exact Or.inl hh
      · exact Or.inr hh⟩
  haveI : IsTrans String NatOrd := ⟨fun _ _ _ => natLE_trans⟩
  haveI : IsAntisymm String NatOrd := ⟨fun _ _ => natLE_antisymm⟩
  exact List.eq_of_perm_of_sorted
    ((List.perm_insertionSort NatOrd l1).trans
      (h.trans (List.perm_insertionSort NatOrd l2).symm))
    (List.sorted_insertionSort NatOrd l1)
    (List.sorted_insertionSort NatOrd l2)

/-! ## Structural invariants of the built tree -/

/-- A member of an insertion result is an old member or the new entry. -/
theorem insertItem_mem :
    ∀ {items : List (String × Pattern)} {k : String} {p : Pattern}
      {x : String × Pattern},
      x ∈ insertItem items k p → x ∈ items ∨ x = (k, p) := by
  intro items k p
  induction items with
  | nil =>
    intro x hx
    simp only [insertItem, List.mem_singleton] at hx
    exact Or.inr hx
  | cons e rest ih =>
    intro x hx
    by_cases he : e.1 = k
    · simp only [insertItem, if_pos he] at hx
      rcases List.mem_cons.mp hx with h | h
      · exact Or.inr h
      · exact Or.inl (List.mem_cons_of_mem _ h)
    · simp only [insertItem, if_neg he] at hx
      rcases List.mem_cons.mp hx with h | h
      · exact Or.inl (by simp [h])
      · rcases ih h with h2 | h2
        · exact Or.inl (List.mem_cons_of_mem _ h2)
        · exact Or.inr h2

/-- Insertion preserves key distinctness. -/
theorem insertItem_pairwise {items : List (String × Pattern)} {k : String}
    {p : Pattern} (h : items.Pairwise (fun a b => a.1 ≠ b.1)) :
    (insertItem items k p).Pairwise (fun a b => a.1 ≠ b.1) := by
  induction items with
  | nil => simp [insertItem]
  | cons e rest ih =>
    have hh := List.pairwise_cons.mp h
    by_cases he : e.1 = k
    · simp only [insertItem, if_pos he]
      refine List.pairwise_cons.mpr ⟨?_, hh.2⟩
      intro b hb
      have := hh.1 b hb
      rw [← he]
      exact this
    · simp only [insertItem, if_neg he]
      refine List.pairwise_cons.mpr ⟨?_, ih hh.2⟩
      intro b hb
      rcases insertItem_mem hb with h2 | h2
      · exact hh.1 b h2
      · rw [h2]
        exact he

/-- Invariant of the raw built tree: derived `id` and `name`, empty
`patterns`, and distinct item keys at every collection. -/
theorem foldPlace_inv (rootKey : String) :
    ∀ (l : List Record) (t : Tree),
      (∀ dir c, lookupColl t dir = some c →
        c.id = collectionId rootKey dir ∧
        c.name = titleCase (dir.getLastD rootKey) ∧
        c.patterns = [] ∧ c.items.Pairwise (fun a b => a.1 ≠ b.1)) →
      ∀ dir c,
        lookupColl (l.foldl (placeRecord rootKey) t) dir = some c →
        c.id = collectionId rootKey dir ∧
        c.name = titleCase (dir.getLastD rootKey) ∧
        c.patterns = [] ∧ c.items.Pairwise (fun a b => a.1 ≠ b.1) := by
  intro l
  induction l with
  | nil => intro t ht dir c h; exact ht dir c h
  | cons r rest ih =>
    intro t ht dir c h
    simp only [List.foldl_cons] at h
    refine ih (placeRecord rootKey t r) ?_ dir c h
    intro dir2 c2 h2
    rw [lookupColl_placeRecord] at h2
    by_cases hcond : r.isCollectionMeta = false ∧ r.segments = dir2
    · rw [if_pos hcond] at h2
      injection h2 with h2
      cases hc : lookupColl t dir2 with
      | some c0 =>
        rw [hc] at h2
        obtain ⟨hid, hname, hpat, hpw⟩ := ht dir2 c0 hc
        subst h2
        exact ⟨hid, hname, hpat, insertItem_pairwise hpw⟩
      | none =>
        rw [hc] at h2
        subst h2
        refine ⟨?_, ?_, rfl, ?_⟩
        · show collectionId rootKey r.segments = collectionId rootKey dir2
          rw [hcond.2]
        · show titleCase (r.segments.getLastD rootKey) = _
          rw [hcond.2]
        · simp [newCollection]
    · rw [if_neg hcond] at h2
      exact ht dir2 c2 h2

/-- Booleans equal when their truths are equivalent. -/
theorem bool_eq_of_iff {a b : Bool} (h : a = true ↔ b = true) : a = b := by
  cases a <;> cases b <;> simp_all

/-- `any` is invariant under permutation. -/
theorem any_eq_of_perm {α : Type} {l1 l2 : List α} (h : l1.Perm l2)
    (p : α → Bool) : l1.any p = l2.any p := by
  apply bool_eq_of_iff
  simp only [List.any_eq_true]
  constructor
  · rintro ⟨x, hx, hpx⟩
    exact ⟨x, h.mem_iff.mp hx, hpx⟩
  · rintro ⟨x, hx, hpx⟩
    exact ⟨x, h.mem_iff.mpr hx, hpx⟩

/-- A key is found exactly when it occurs among the item keys. -/
theorem lookupItem_isSome_iff :
    ∀ (items : List (String × Pattern)) (k : String),
      (lookupItem items k).isSome = true ↔ k ∈ items.map Prod.fst := by
  intro items k
  induction items with
  | nil => simp [lookupItem]
  | cons e rest ih =>
    by_cases he : e.1 = k
    · simp [lookupItem, he]
    · simp only [lookupItem, if_neg he, List.map_cons, List.mem_cons]
      rw [ih]
      constructor
      · intro h
        exact Or.inr h
      · rintro (h | h)
        · exact absurd h (fun hh => he hh.symm)
        · exact h

/-- Distinct-key mappings with equal lookups have permuted key lists. -/
theorem itemKeys_perm {i1 i2 : List (String × Pattern)}
    (h1 : i1.Pairwise (fun a b => a.1 ≠ b.1))
    (h2 : i2.Pairwise (fun a b => a.1 ≠ b.1))
    (hl : ∀ k, lookupItem i1 k = lookupItem i2 k) :
    (i1.map Prod.fst).Perm (i2.map Prod.fst) := by
  have n1 : (i1.map Prod.fst).Nodup := List.pairwise_map.mpr h1
  have n2 : (i2.map Prod.fst).Nodup := List.pairwise_map.mpr h2
  rw [List.perm_ext_iff_of_nodup n1 n2]
  intro k
  rw [← lookupItem_isSome_iff, ← lookupItem_isSome_iff, hl k]

/-- `filterMap` only depends on the pointwise behaviour of its function. -/
theorem filterMap_congr_list {α β : Type} (f g : α → Option β) :
    ∀ (l : List α), (∀ a ∈ l, f a = g a) → l.filterMap f = l.filterMap g := by
  intro l
  induction l with
  | nil => intro _; rfl
  | cons x xs ih =>
    intro h
    simp only [List.filterMap_cons]
    rw [h x (by simp), ih (fun a ha => h a (by simp [ha]))]

/-- The `patterns` view depends on `items` only through its key multiset
and its lookups. -/
theorem collectionPatterns_congr (order : List String)
    {i1 i2 : List (String × Pattern)}
    (h1 : i1.Pairwise (fun a b => a.1 ≠ b.1))
    (h2 : i2.Pairwise (fun a b => a.1 ≠ b.1))
    (hl : ∀ k, lookupItem i1 k = lookupItem i2 k) :
    collectionPatterns order i1 = collectionPatterns order i2 := by
  have hperm := itemKeys_perm h1 h2 hl
  have hmem : ∀ k : String,
      (i1.map Prod.fst).contains k = (i2.map Prod.fst).contains k := by
    intro k
    apply bool_eq_of_iff
    simp only [List.contains, List.elem_iff]
    exact ⟨fun h => hperm.mem_iff.mp h, fun h => hperm.mem_iff.mpr h⟩
  have hkeys : orderedKeys order (i1.map Prod.fst) =
      orderedKeys order (i2.map Prod.fst) := by
    unfold orderedKeys
    congr 1
    · exact List.filter_congr (fun k _ => by rw [hmem k])
    · exact natSort_eq_of_perm (hperm.filter _)
  unfold collectionPatterns
  rw [hkeys]
  have hhid : ∀ k, hiddenOf i1 k = hiddenOf i2 k := fun k => by
    unfold hiddenOf
    rw [hl k]
  rw [List.filter_congr (fun k _ => by rw [hhid k])]
  exact filterMap_congr_list _ _ _ (fun k _ => hl k)

/-! ## Claim C3: determinism of the built tree -/

/-- Claim C3, amended: for a fixed collision-free set of input records and
a fixed explicit-order declaration, any two read orders produce
structurally identical trees: the same collection paths, the same `id`s
and `name`s, the same `items` as mappings, and the same `patterns`
sequences. (Records colliding on directory and key are the documented
overwrite hazard and are excluded.) -/
theorem claimC3_determinism (rootKey : String)
    (orderOf : List String → List String) (l1 l2 : List Record)
    (hperm : l1.Perm l2)
    (hclean : ∀ r ∈ l1, reservedCheck r = none)
    (hdist : l1.Pairwise (fun a b => ¬ recordsCollide a b)) :
    ∃ t1 t2, buildPatterns rootKey orderOf l1 = Except.ok t1 ∧
      buildPatterns rootKey orderOf l2 = Except.ok t2 ∧ treeEquiv t1 t2 := by
  have hclean2 : ∀ r ∈ l2, reservedCheck r = none :=
    fun r hr => hclean r (hperm.mem_iff.mpr hr)
  have hdist2 : l2.Pairwise (fun a b => ¬ recordsCollide a b) :=
    (hperm.pairwise_iff
      (fun {a b} hab hba => hab ⟨hba.2.1, hba.1, hba.2.2.1.symm, hba.2.2.2.symm⟩)).mp
      hdist
  have hinvnil : ∀ dir c, lookupColl ([] : Tree) dir = some c →
      c.id = collectionId rootKey dir ∧
      c.name = titleCase (dir.getLastD rootKey) ∧
      c.patterns = [] ∧ c.items.Pairwise (fun a b => a.1 ≠ b.1) := by
    intro dir c h
    simp [lookupColl] at h
  refine ⟨(l1.foldl (placeRecord rootKey) []).map
      (fun e => (e.1, finalizeCollection orderOf e.1 e.2)),
    (l2.foldl (placeRecord rootKey) []).map
      (fun e => (e.1, finalizeCollection orderOf e.1 e.2)), ?_, ?_, ?_⟩
  · have hb1 : buildTree rootKey l1 =
        Except.ok (l1.foldl (placeRecord rootKey) []) :=
      buildFold_ok rootKey l1 [] hclean
    unfold buildPatterns
    rw [hb1]
    rfl
  · have hb2 : buildTree rootKey l2 =
        Except.ok (l2.foldl (placeRecord rootKey) []) :=
      buildFold_ok rootKey l2 [] hclean2
    unfold buildPatterns
    rw [hb2]
    rfl
  · intro dir
    have hfind : ∀ k, l1.find? (matchesRK dir k) = l2.find? (matchesRK dir k) := by
      intro k
      cases hf1 : l1.find? (matchesRK dir k) with
      | some x =>
        have hxmem : x ∈ l1 := List.mem_of_find?_eq_some hf1
        have hxp : matchesRK dir k x = true := List.find?_some hf1
        obtain ⟨hm, hs, hk⟩ := matchesRK_iff.mp hxp
        subst hs
        subst hk
        exact (find?_matches_self hdist2 (hperm.mem_iff.mp hxmem) hm).symm
      | none =>
        cases hf2 : l2.find? (matchesRK dir k) with
        | none => rfl
        | some y =>
          have hymem : y ∈ l2 := List.mem_of_find?_eq_some hf2
          have hyp := List.find?_some hf2
          have : (l1.find? (matchesRK dir k)).isSome = true :=
            List.find?_isSome.mpr ⟨y, hperm.mem_iff.mpr hymem, hyp⟩
          rw [hf1] at this
          cases this
    constructor
    · rw [lookupColl_mapFinalize, lookupColl_mapFinalize]
      simp only [Option.isSome_map']
      rw [lookupColl_foldPlace_isSome, lookupColl_foldPlace_isSome]
      simp only [lookupColl]
      rw [any_eq_of_perm hperm]
    · intro c1 c2 hc1 hc2
      rw [lookupColl_mapFinalize] at hc1 hc2
      obtain ⟨c01, h01, e1⟩ := Option.map_eq_some'.mp hc1
      obtain ⟨c02, h02, e2⟩ := Option.map_eq_some'.mp hc2
      subst e1
      subst e2
      obtain ⟨hid1, hname1, hpat1, hpw1⟩ :=
        foldPlace_inv rootKey l1 [] hinvnil dir c01 h01
      obtain ⟨hid2, hname2, hpat2, hpw2⟩ :=
        foldPlace_inv rootKey l2 [] hinvnil dir c02 h02
      have hitems : ∀ k, lookupItem c01.items k = lookupItem c02.items k := by
        intro k
        have e1 : itemAt (l1.foldl (placeRecord rootKey) []) dir k =
            lookupItem c01.items k := by
          unfold itemAt
          rw [h01]
          rfl
        have e2 : itemAt (l2.foldl (placeRecord rootKey) []) dir k =
            lookupItem c02.items k := by
          unfold itemAt
          rw [h02]
          rfl
        rw [← e1, ← e2, itemAt_foldPlace rootKey l1 [] dir k hdist,
          itemAt_foldPlace rootKey l2 [] dir k hdist2, hfind k]
      refine ⟨?_, ?_, hitems, ?_⟩
      · show c01.id = c02.id
        rw [hid1, hid2]
      · show c01.name = c02.name
        rw [hname1, hname2]
      · show collectionPatterns (orderOf dir) c01.items =
          collectionPatterns (orderOf dir) c02.items
        exact collectionPatterns_congr (orderOf dir) hpw1 hpw2 hitems

/-- Claim C3 counterexample: two records with distinct paths whose derived
keys collide (`a/01-x.html` and `a/x.html` both key to `x`) make the tree
depend on the read order — the later record overwrites the earlier one, so
the two permutations give different `items` contents. -/
theorem claimC3_determinism_cex :
    keyname "a/01-x.html" {} = "x" ∧
    keyname "a/x.html" {} = "x" ∧
    "a/01-x.html" ≠ "a/x.html" ∧
    ([{ path := "a/01-x.html", segments := ["a"], key := "x",
        isCollectionMeta := false, dataKeys := [], hidden := false,
        contents := "one" },
      { path := "a/x.html", segments := ["a"], key := "x",
        isCollectionMeta := false, dataKeys := [], hidden := false,
        contents := "two" }] : List Record).Perm
      [{ path := "a/x.html", segments := ["a"], key := "x",
         isCollectionMeta := false, dataKeys := [], hidden := false,
         contents := "two" },
       { path := "a/01-x.html", segments := ["a"], key := "x",
         isCollectionMeta := false, dataKeys := [], hidden := false,
         contents := "one" }] ∧
    (buildPatterns "patterns" (fun _ => [])
        [{ path := "a/01-x.html", segments := ["a"], key := "x",
           isCollectionMeta := false, dataKeys := [], hidden := false,
           contents := "one" },
         { path := "a/x.html", segments := ["a"], key := "x",
           isCollectionMeta := false, dataKeys := [], hidden := false,
           contents := "two" }]).map
        (fun t => (itemAt t ["a"] "x").map Pattern.contents) =
      Except.ok (some "two") ∧
    (buildPatterns "patterns" (fun _ => [])
        [{ path := "a/x.html", segments := ["a"], key := "x",
           isCollectionMeta := false, dataKeys := [], hidden := false,
           contents := "two" },
         { path := "a/01-x.html", segments := ["a"], key := "x",
           isCollectionMeta := false, dataKeys := [], hidden := false,
           contents := "one" }]).map
        (fun t => (itemAt t ["a"] "x").map Pattern.contents) =
      Except.ok (some "one") ∧
    (some "two" : Option String) ≠ some "one" := by
  refine ⟨by decide, by decide, by decide, ?_, by decide, by decide, by decide⟩
  exact List.Perm.swap _ _ _

/-- Claim C3 witness: the amended determinism theorem applied to a concrete
collision-free two-record set and a transposition of it. -/
theorem claimC3_determinism_witness :
    ∃ t1 t2,
      buildPatterns "patterns" (fun _ => ["b"])
          [{ path := "p/a.html", segments := [], key := "a",
             isCollectionMeta := false, dataKeys := [], hidden := false,
             contents := "A" },
           { path := "p/b.html", segments := [], key := "b",
             isCollectionMeta := false, dataKeys := [], hidden := false,
             contents := "B" }] = Except.ok t1 ∧
      buildPatterns "patterns" (fun _ => ["b"])
          [{ path := "p/b.html", segments := [], key := "b",
             isCollectionMeta := false, dataKeys := [], hidden := false,
             contents := "B" },
           { path := "p/a.html", segments := [], key := "a",
             isCollectionMeta := false, dataKeys := [], hidden := false,
             contents := "A" }] = Except.ok t2 ∧
      treeEquiv t1 t2 :=
  claimC3_determinism "patterns" (fun _ => ["b"]) _ _
    (List.Perm.swap _ _ _) (by decide) (by decide)

/-! ## Claims C4 and C5: the renderer walk -/

/-- Values have positive size. -/
theorem val_sizeOf_pos (t : Val) : 0 < sizeOf t := by
  cases t <;> simp_arith

/-- Writing back the value already stored at a key changes nothing. -/
theorem setField_getField_self :
    ∀ (fs : List (String × Val)) (k : String) (v : Val),
      getField fs k = some v → setField fs k v = fs := by
  intro fs
  induction fs with
  | nil => intro k v h; simp [getField] at h
  | cons e rest ih =>
    intro k v h
    by_cases he : e.1 = k
    · simp only [getField, if_pos he] at h
      injection h with h
      simp only [setField, if_pos he]
      rw [← h, ← he]
    · simp only [getField, if_neg he] at h
      simp only [setField, if_neg he]
      rw [ih k v h]

/-- When the tree already contains the path, `deepObj` creates nothing:
it returns the tree unchanged together with the node reached. -/
theorem deepObj_of_hasPath :
    ∀ (ks : List String) (tpl : Val), hasPath ks tpl = true →
      ∃ node, deepObj ks tpl = some (tpl, node) := by
  intro ks
  induction ks with
  | nil => intro tpl _; exact ⟨tpl, rfl⟩
  | cons k ks ih =>
    intro tpl h
    cases tpl with
    | str s => simp [hasPath] at h
    | obj fs =>
      cases hg : getField fs k with
      | none =>
        simp only [hasPath, hg] at h
        cases h
      | some v =>
        cases v with
        | str s =>
          simp only [hasPath, hg] at h
          cases h
        | obj cfs =>
          simp only [hasPath, hg] at h
          obtain ⟨node, hnode⟩ := ih (Val.obj cfs) h
          refine ⟨node, ?_⟩
          simp only [deepObj, hg]
          rw [hnode]
          show some (Val.obj (setField fs k (Val.obj cfs)), node) =
            some (Val.obj fs, node)
          rw [setField_getField_self fs k (Val.obj cfs) hg]

/-- An Option-valued state fold whose every step succeeds, preserves the
threaded template tree, and appends one related element, succeeds overall
and appends the `Forall₂`-related list. -/
theorem foldlM_append_spec {α β : Type} (P : α → β → Prop)
    (step : Val × List β → α → Option (Val × List β)) (tpl : Val) :
    ∀ l : List α,
      (∀ a ∈ l, ∀ acc : List β,
        ∃ b, step (tpl, acc) a = some (tpl, acc ++ [b]) ∧ P a b) →
      ∀ acc : List β,
        ∃ out, l.foldlM step (tpl, acc) = some (tpl, acc ++ out) ∧
          List.Forall₂ P l out := by
  intro l
  induction l with
  | nil =>
    intro _ acc
    exact ⟨[], by simp, List.Forall₂.nil⟩
  | cons a as ih =>
    intro h acc
    obtain ⟨b, hb, hP⟩ := h a (by simp) acc
    obtain ⟨out, hout, hF⟩ :=
      ih (fun x hx acc2 => h x (by simp [hx]) acc2) (acc ++ [b])
    refine ⟨b :: out, ?_, List.Forall₂.cons hP hF⟩
    rw [List.foldlM_cons, hb]
    show as.foldlM step (tpl, acc ++ [b]) = some (tpl, acc ++ b :: out)
    rw [hout]
    simp

/-- Unpacking well-formedness of a field list at a member. -/
theorem wfFields_mem : ∀ {fs : List (String × Val)} {e : String × Val},
    wfFields fs = true → e ∈ fs →
    (e.1 = "collection" → e.2.isObj = true) ∧
    (¬ e.1 = "collection" → wfTree e.2 = true) := by
  intro fs
  induction fs with
  | nil => intro e _ he; cases he
  | cons x xs ih =>
    intro e hwf he
    obtain ⟨k, v⟩ := x
    simp only [wfFields, Bool.and_eq_true] at hwf
    rcases List.mem_cons.mp he with rfl | hmem
    · constructor
      · intro hc
        have := hwf.1
        simp only at hc
        subst hc
        simpa using this
      · intro hc
        have := hwf.1
        simp only at hc
        rw [if_neg (fun hh => hc (by simpa using hh))] at this
        exact this
    · exact ih hwf.2 hmem

/-- Pointwise frame facts assemble into the field-list frame relation. -/
theorem frameFieldsOk_of_forall2 :
    ∀ {fs rs : List (String × Val)},
      List.Forall₂ PairFrame fs rs → FrameFieldsOk fs rs := by
  intro fs
  induction fs with
  | nil =>
    intro rs h
    cases h
    exact FrameFieldsOk.nil
  | cons a as ih =>
    intro rs h
    cases rs with
    | nil => cases h
    | cons b bs =>
      have hP : PairFrame a b := by cases h; assumption
      have hrest : List.Forall₂ PairFrame as bs := by
        cases h
        assumption
      obtain ⟨ka, va⟩ := a
      obtain ⟨kb, vb⟩ := b
      obtain ⟨hk, hcase⟩ := hP
      simp only at hk
      subst hk
      rcases hcase with ⟨hc, cfs, s, he2, hb2⟩ | ⟨hc, hfr⟩
      · simp only at hc he2 hb2
        subst hc
        subst he2
        subst hb2
        exact FrameFieldsOk.consColl cfs _ as bs (ih hrest)
      · simp only at hc
        exact FrameFieldsOk.consOther _ _ _ _ _ hc hfr (ih hrest)

/-- The walk diverges on the one-character string `"a"`: each fuel step
recurses into the same value. -/
theorem walk_str_a_none (applyT : Option Val → Val → String → String)
    (layoutKey : List String) :
    ∀ (f : Nat) (key : String) (tpl : Val),
      walkCollections applyT layoutKey f key tpl (Val.str "a") = none := by
  intro f
  induction f with
  | zero => intro key tpl; rfl
  | succ f ih =>
    intro key tpl
    simp only [walkCollections]
    rw [show strFields "a" = [("0", Val.str "a")] from rfl]
    rw [List.foldlM_cons]
    simp only [show ((("0" : String) == "collection")) = false from rfl,
      Bool.false_eq_true, if_false, ih]
    rfl

/-- The walk diverges on any tree with a child `"a"` at a non-collection
key. -/
theorem walk_obj_str_none (applyT : Option Val → Val → String → String)
    (layoutKey : List String) :
    ∀ (f : Nat) (key : String) (tpl : Val),
      walkCollections applyT layoutKey f key tpl
        (Val.obj [("x", Val.str "a")]) = none := by
  intro f key tpl
  cases f with
  | zero => rfl
  | succ f =>
    simp only [walkCollections]
    rw [List.foldlM_cons]
    simp only [show ((("x" : String) == "collection")) = false from rfl,
      Bool.false_eq_true, if_false, walk_str_a_none applyT layoutKey f "x" tpl]
    rfl

/-- On a builder-shaped tree, with a template tree that already contains
the layout path, the walk succeeds with fuel at least the tree size,
returns the template tree unchanged, and its output pattern tree stands in
the frame relation to the input. -/
theorem walk_wf_frame (applyT : Option Val → Val → String → String)
    (layoutKey : List String) (tpl : Val)
    (hpath : hasPath layoutKey tpl = true) :
    ∀ (f : Nat) (t : Val) (key : String),
      wfTree t = true → sizeOf t ≤ f →
      ∃ t', walkCollections applyT layoutKey f key tpl t = some (tpl, t') ∧
        FrameOk t t' := by
  intro f
  induction f with
  | zero =>
    intro t key _ hsz
    have := val_sizeOf_pos t
    omega
  | succ f ih =>
    intro t key hwf hsz
    cases t with
    | str s => simp [wfTree] at hwf
    | obj fs =>
      simp only [wfTree] at hwf
      obtain ⟨layoutObj, hdeep⟩ := deepObj_of_hasPath layoutKey tpl hpath
      have hfields : ∀ e ∈ fs, ∀ acc : List (String × Val),
          ∃ b, (if e.1 == "collection" then
              match e.2 with
              | Val.obj cfs =>
                match deepObj layoutKey tpl with
                | none => none
                | some (tpl2, layoutObj) =>
                  some (tpl2, acc ++ [(e.1, Val.obj (setField cfs "contents"
                    (Val.str (applyT (layoutContents layoutObj)
                      (Val.obj cfs) key))))])
              | Val.str _ => none
            else
              match walkCollections applyT layoutKey f e.1 tpl e.2 with
              | none => none
              | some (tpl2, v2) => some (tpl2, acc ++ [(e.1, v2)])) =
            some (tpl, acc ++ [b]) ∧ PairFrame e b := by
        intro e he acc
        obtain ⟨hcoll, hother⟩ := wfFields_mem hwf he
        by_cases hc : e.1 = "collection"
        · have hobj := hcoll hc
          cases he2 : e.2 with
          | str s2 =>
            rw [he2] at hobj
            simp [Val.isObj] at hobj
          | obj cfs =>
            refine ⟨(e.1, Val.obj (setField cfs "contents"
              (Val.str (applyT (layoutContents layoutObj)
                (Val.obj cfs) key)))), ?_, ?_⟩
            · rw [if_pos (by simp [hc])]
              rw [hdeep]
            · exact ⟨rfl, Or.inl ⟨hc, cfs, _, he2, rfl⟩⟩
        · have hwfv := hother hc
          have hszv : sizeOf e.2 ≤ f := by
            have h1 := List.sizeOf_lt_of_mem he
            obtain ⟨k, v⟩ := e
            simp only at hwfv ⊢
            have h2 : sizeOf (Val.obj fs) ≤ f + 1 := hsz
            simp_arith at h1 h2
            omega
          obtain ⟨v2, hw, hfr⟩ := ih e.2 e.1 hwfv hszv
          refine ⟨(e.1, v2), ?_, ⟨rfl, Or.inr ⟨hc, hfr⟩⟩⟩
          rw [if_neg (by simp [hc]), hw]
      obtain ⟨rs, hout, hF⟩ := foldlM_append_spec PairFrame
        (fun (st : Val × List (String × Val)) (e : String × Val) =>
          if e.1 == "collection" then
            match e.2 with
            | Val.obj cfs =>
              match deepObj layoutKey st.1 with
              | none => none
              | some (tpl2, layoutObj) =>
                some (tpl2, st.2 ++ [(e.1, Val.obj (setField cfs "contents"
                  (Val.str (applyT (layoutContents layoutObj)
                    (Val.obj cfs) key))))])
            | Val.str _ => none
          else
            match walkCollections applyT layoutKey f e.1 st.1 e.2 with
            | none => none
            | some (tpl2, v2) => some (tpl2, st.2 ++ [(e.1, v2)]))
        tpl fs hfields []
      refine ⟨Val.obj rs, ?_, FrameOk.obj _ _ (frameFieldsOk_of_forall2 hF)⟩
      simp only [walkCollections]
      rw [hout]
      rfl

/-- Claim C4 counterexample: when the template tree lacks the configured
collection-layout path, the render pass **does** modify the supplied
template tree — `deepObj` creates empty objects along the path. Rendering
a minimal collection against an empty template tree with layout key
`collection` returns a template tree with a new `collection` entry. -/
theorem claimC4_renderFrame_cex :
    renderCollections (fun _ _ _ => "") ["collection"] 2 (Val.obj [])
        (Val.obj [("collection", Val.obj [])]) =
      some (Val.obj [("collection", Val.obj [])],
        Val.obj [("collection", Val.obj [("contents", Val.str "")])]) ∧
    Val.obj [("collection", Val.obj [])] ≠ Val.obj [] := by
  constructor
  · rfl
  · intro h
    simp at h

/-- Claim C4, amended: on every builder-shaped tree (each visited node an
object, each `collection` value an object) the render pass terminates and
returns a pattern tree identical to its input except that every object
stored at a `"collection"` key has gained a string `contents` (the applied
template); each Pattern leaf, including its `contents`, is untouched. The
supplied template tree is returned unmodified **provided it already
contains the configured collection-layout path**; when that path is
missing, the renderer's `deepObj` lookup creates empty objects along it,
mutating the template tree (the only other mutation of the pass). -/
theorem claimC4_renderFrame (applyT : Option Val → Val → String → String)
    (layoutKey : List String) (tpl t : Val)
    (hwf : wfTree t = true) (hpath : hasPath layoutKey tpl = true) :
    ∃ t', renderCollections applyT layoutKey (sizeOf t) tpl t =
        some (tpl, t') ∧ FrameOk t t' :=
  walk_wf_frame applyT layoutKey tpl hpath (sizeOf t) t "patterns" hwf
    (le_refl _)

/-- Claim C4 witness: a concrete namespace tree with one collection,
rendered against a template tree that contains the layout path. -/
theorem claimC4_renderFrame_witness :
    ∃ t', renderCollections (fun _ _ _ => "RENDERED") ["collection"]
        (sizeOf (Val.obj [("ns", Val.obj [("collection",
          Val.obj [("name", Val.str "Ns")])])]))
        (Val.obj [("collection", Val.obj [("contents", Val.str "L")])])
        (Val.obj [("ns", Val.obj [("collection",
          Val.obj [("name", Val.str "Ns")])])]) =
      some (Val.obj [("collection", Val.obj [("contents", Val.str "L")])], t') ∧
      FrameOk (Val.obj [("ns", Val.obj [("collection",
        Val.obj [("name", Val.str "Ns")])])]) t' :=
  claimC4_renderFrame (fun _ _ _ => "RENDERED") ["collection"]
    (Val.obj [("collection", Val.obj [("contents", Val.str "L")])])
    (Val.obj [("ns", Val.obj [("collection",
      Val.obj [("name", Val.str "Ns")])])]) (by decide) (by decide)

/-- Claim C5, amended: the walk recurses into **every** child at a key
other than `"collection"`, container or not (the source has no container
check). With a template tree containing the layout path, it terminates —
fuel the tree size — on every tree whose visited nodes are all objects;
but a non-empty non-container child (a string such as `"a"`) makes the
recursion diverge, since JavaScript `for..in` over a primitive string
enumerates its characters, each itself a non-empty string. -/
theorem claimC5_walkTermination :
    (∀ (applyT : Option Val → Val → String → String)
        (layoutKey : List String) (tpl t : Val) (key : String) (f : Nat),
      wfTree t = true → hasPath layoutKey tpl = true → sizeOf t ≤ f →
      ∃ out, walkCollections applyT layoutKey f key tpl t = some out) ∧
    (∀ (applyT : Option Val → Val → String → String)
        (layoutKey : List String) (f : Nat) (key : String) (tpl : Val),
      walkCollections applyT layoutKey f key tpl
        (Val.obj [("x", Val.str "a")]) = none) := by
  constructor
  · intro applyT layoutKey tpl t key f hwf hpath hsz
    obtain ⟨t', h, _⟩ := walk_wf_frame applyT layoutKey tpl hpath f t key hwf hsz
    exact ⟨(tpl, t'), h⟩
  · intro applyT layoutKey f key tpl
    exact walk_obj_str_none applyT layoutKey f key tpl

/-- Claim C5 witness: termination on a concrete all-object tree. -/
theorem claimC5_walkTermination_witness :
    ∃ out, walkCollections (fun _ _ _ => "") ["collection"]
        (sizeOf (Val.obj [("collection", Val.obj [])])) "patterns"
        (Val.obj [("collection", Val.obj [("contents", Val.str "L")])])
        (Val.obj [("collection", Val.obj [])]) = some out :=
  claimC5_walkTermination.1 (fun _ _ _ => "") ["collection"]
    (Val.obj [("collection", Val.obj [("contents", Val.str "L")])])
    (Val.obj [("collection", Val.obj [])]) "patterns" _
    (by decide) (by decide) (le_refl _)

/-- Claim C5 counterexample: the walk does **not** terminate on every
finite tree with non-container children — on `{x: "a"}` it runs out of any
amount of fuel. -/
theorem claimC5_walkTermination_cex :
    ¬ ∃ (f : Nat) (out : Val × Val),
      walkCollections (fun _ _ _ => "") [] f "patterns" (Val.obj [])
        (Val.obj [("x", Val.str "a")]) = some out := by
  rintro ⟨f, out, h⟩
  rw [walk_obj_str_none] at h
  cases h
end Drizzle
